import Mathlib

/-!
# Verification of the `depper` dependency-graph library

A shallow embedding of `src/lib.rs` (crate `depper`): a builder that registers
named elements with dependency lists, validates referential integrity and
acyclicity, and partitions a validated graph into ordered "tranches" by
repeatedly removing dependency-free nodes.

Node identity in `petgraph` is a `NodeIndex`; the builder creates at most one
node per distinct name, and every observation the library makes on the graph
(`node_references`, `find_node_by_name`, `neighbors_directed ... == 0`,
`remove_node`) is keyed by the node's name.  We therefore model the directed
graph by its list of node names together with its list of name-level edges
(one edge per dependency occurrence, as `add_edge` is called once per
occurrence).  This representation is faithful whenever node names are unique,
which the builder guarantees and which we track as an invariant.

Machine integers do not occur; all counters are list lengths (`Nat`).
-/

namespace Depper

/-- Model of `petgraph::graph::DiGraph<String, ()>` as observed by the
library: the node names (in node-index order) and the directed edges
`(source, target)`, one entry per `add_edge` call. -/
structure DiGraphS where
  nodes : List String
  edges : List (String × String)
deriving DecidableEq, Repr

/-- The validated-graph struct `Dependencies { graph: DiGraph<String, ()> }`. -/
structure Dependencies where
  graph : DiGraphS
deriving DecidableEq, Repr

/-- Model of `DependenciesBuilder`: `all_elements`, `all_dependencies`,
`graph`, and `dependency_map: HashMap<String, (NodeIndex, Vec<String>)>`.
The map is modelled as an association list keyed by name (the `NodeIndex`
component is determined by the name, since at most one node per name is ever
created, so it is dropped). -/
structure DependenciesBuilder where
  all_elements : List String
  all_dependencies : List String
  graph : DiGraphS
  dependency_map : List (String × List String)
deriving DecidableEq, Repr

/-- `HashMap::get` on the modelled `dependency_map`. -/
def mapGet : List (String × List String) → String → Option (List String)
  | [], _ => none
  | (k, v) :: rest, name => if k = name then some v else mapGet rest name

/-- `HashMap::insert` for a key already present: overwrite its value in
place (position in the association list is unobservable, matching the
unordered `HashMap`). -/
def mapSet (m : List (String × List String)) (name : String) (v : List String) :
    List (String × List String) :=
  m.map (fun p => if p.1 = name then (name, v) else p)

/-- `DependenciesBuilder::add_element` (src/lib.rs:62-74): always extend
`all_dependencies`; if the name is already registered overwrite its
dependency list (keeping its node), otherwise record the new element, add a
graph node, and insert into the map. -/
def add_element (b : DependenciesBuilder) (name : String) (dependecies : List String) :
    DependenciesBuilder :=
  match mapGet b.dependency_map name with
  | some _ =>
    { b with
      all_dependencies := b.all_dependencies ++ dependecies
      dependency_map := mapSet b.dependency_map name dependecies }
  | none =>
    { b with
      all_dependencies := b.all_dependencies ++ dependecies
      all_elements := b.all_elements ++ [name]
      graph := { b.graph with nodes := b.graph.nodes ++ [name] }
      dependency_map := b.dependency_map ++ [(name, dependecies)] }

/-- The edges produced by one sweep of `add_edges` (src/lib.rs:76-83): one
edge `(element, dependency)` per dependency occurrence in the map.  The Rust
code resolves `dependency` to the node index stored in
`dependency_map[dependency]`; that node's name is `dependency` itself. -/
def edgesOf (m : List (String × List String)) : List (String × String) :=
  m.flatMap (fun p => p.2.map (fun d => (p.1, d)))

/-- `DependenciesBuilder::add_edges`: append the projection of the
dependency map to the graph's edge list. -/
def add_edges (b : DependenciesBuilder) : DependenciesBuilder :=
  { b with graph := { b.graph with edges := b.graph.edges ++ edgesOf b.dependency_map } }

/-- `DependenciesBuilder::dependencies_are_met` (src/lib.rs:85-90): every
name ever passed as a dependency is a registered element. -/
def dependencies_are_met (b : DependenciesBuilder) : Bool :=
  b.all_dependencies.all (fun dependency => b.all_elements.contains dependency)

/-- `Dependencies::find_node_by_name` (src/lib.rs:126-133): scan
`node_references` in index order and return the first node whose name
matches.  The returned `NodeIndex` is modelled by the node's name. -/
def find_node_by_name (g : DiGraphS) (name : String) : Option String :=
  g.nodes.find? (fun node_name => node_name == name)

/-- `petgraph`'s `remove_node`, observed through names: drop one node with
the given name and every edge incident to it. -/
def remove_node (g : DiGraphS) (name : String) : DiGraphS :=
  { nodes := g.nodes.erase name
    edges := g.edges.filter (fun e => !(e.1 == name) && !(e.2 == name)) }

/-- `neighbors_directed(node, Direction::Outgoing).count() == 0` for the
node named `n`: no edge leaves `n`. -/
def zeroOutDegree (g : DiGraphS) (n : String) : Bool :=
  (g.edges.filter (fun e => e.1 == n)).length == 0

/-- The `node_to_remove` list of one pass of `generate_tranches`
(src/lib.rs:139-149): the remaining nodes with no outgoing edge, in node
order. -/
def node_to_remove (g : DiGraphS) : List String :=
  g.nodes.filter (fun n => zeroOutDegree g n)

/-- The removal `for` loop of one pass (src/lib.rs:150-158): look each
name up (`ok_or("Node not found")?`), remove the node, and push the name
onto `new_layer`. -/
def removeLoop : List String → DiGraphS → List String →
    Except String (List String × DiGraphS)
  | [], g, new_layer => .ok (new_layer, g)
  | name :: rest, g, new_layer =>
    match find_node_by_name g name with
    | none => .error "Node not found"
    | some _ => removeLoop rest (remove_node g name) (new_layer ++ [name])

/-- One iteration of the `while` loop of `generate_tranches`. -/
def tranchePass (g : DiGraphS) : Except String (List String × DiGraphS) :=
  removeLoop (node_to_remove g) g []

/-- The `while traverse_graph.node_count() > 0` loop of
`generate_tranches` (src/lib.rs:138-160), indexed by explicit fuel because
the Rust loop has no iteration bound: `none` means the loop is still
running after `fuel` iterations, `some r` means it finished with result
`r` within `fuel` iterations. -/
def tranchesLoop (fuel : Nat) (g : DiGraphS) (tranches : List (List String)) :
    Option (Except String (List (List String))) :=
  if g.nodes.isEmpty then some (.ok tranches)
  else
    match fuel with
    | 0 => none
    | fuel' + 1 =>
      match tranchePass g with
      | .error e => some (.error e)
      | .ok (new_layer, g') => tranchesLoop fuel' g' (tranches ++ [new_layer])

/-- `Dependencies::generate_tranches` (src/lib.rs:135-162), fuel-indexed
like `tranchesLoop`. -/
def Dependencies.generate_tranches (d : Dependencies) (fuel : Nat) :
    Option (Except String (List (List String))) :=
  tranchesLoop fuel d.graph []

/-- Model of `petgraph::algo::is_cyclic_directed`, whose contract is to
return `true` iff the directed graph contains a cycle.  It is realized
here by Kahn-style elimination: the graph is acyclic exactly when
repeatedly deleting out-degree-zero nodes (which needs at most one pass
per node) empties it.  `tranchesLoop` performs exactly this elimination.
On every graph the builder can produce (unique node names, edge endpoints
among the nodes) this coincides with cycle existence; the direction needed
by the claims (a cycle forces `true`) is proved below. -/
def is_cyclic_directed (g : DiGraphS) : Bool :=
  match tranchesLoop g.nodes.length g [] with
  | some (.ok _) => false
  | _ => true

/-- `DependenciesBuilder::no_cyclic_dependencies` (src/lib.rs:92-94). -/
def no_cyclic_dependencies (b : DependenciesBuilder) : Bool :=
  !(is_cyclic_directed b.graph)

/-- The two error values produced by `validate` (src/lib.rs:96-109):
`missingDependency` is the `anyhow!("Some dependencies do not exist as
elements")` error and `cyclicDependency` the
`anyhow!("Cyclic dependency detected")` error. -/
inductive DepError where
  | missingDependency
  | cyclicDependency
deriving DecidableEq, Repr

/-- `DependenciesBuilder::validate` (src/lib.rs:96-109): referential
integrity first, then build the edges, then the cycle check, then
`clear_edges`.  The mutated builder is returned explicitly (`&mut self`
in Rust). -/
def validate (b : DependenciesBuilder) : Except DepError DependenciesBuilder :=
  if !(dependencies_are_met b) then .error .missingDependency
  else
    let b' := add_edges b
    if !(no_cyclic_dependencies b') then .error .cyclicDependency
    else .ok { b' with graph := { b'.graph with edges := [] } }

/-- `DependenciesBuilder::build` (src/lib.rs:111-117): `validate` then
`add_edges` then wrap the graph. -/
def build (b : DependenciesBuilder) : Except DepError Dependencies :=
  match validate b with
  | .error e => .error e
  | .ok b' => .ok { graph := (add_edges b').graph }

/-- `Dependencies::builder` (src/lib.rs:164-171): the empty builder. -/
def Dependencies.builder : DependenciesBuilder :=
  { all_elements := []
    all_dependencies := []
    graph := { nodes := [], edges := [] }
    dependency_map := [] }

/-- The builder obtained by a sequence of `add_element` calls on
`Dependencies::builder()`; the claims quantify over such sequences. -/
def buildFrom (regs : List (String × List String)) : DependenciesBuilder :=
  regs.foldl (fun b r => add_element b r.1 r.2) Dependencies.builder

/-- The dependency relation of a builder's final map: `depRel b a c` holds
when `c` occurs in the dependency list currently recorded for `a`. -/
def depRel (b : DependenciesBuilder) (a c : String) : Prop :=
  ∃ l, mapGet b.dependency_map a = some l ∧ c ∈ l

/-- The edge relation of a graph value, as a proposition. -/
def edgeRel (g : DiGraphS) (a c : String) : Prop :=
  (a, c) ∈ g.edges

/-- Invariant of every builder state reachable by `add_element` calls from
`Dependencies::builder()`. -/
structure Inv (b : DependenciesBuilder) : Prop where
  nodes_eq : b.graph.nodes = b.all_elements
  elements_nodup : b.all_elements.Nodup
  keys_iff : ∀ n, (mapGet b.dependency_map n).isSome ↔ n ∈ b.all_elements
  keys_nodup : (b.dependency_map.map Prod.fst).Nodup
  edges_nil : b.graph.edges = []

/-- The net effect on the graph of removing a list of names in order. -/
def removeNodesSeq (g : DiGraphS) (names : List String) : DiGraphS :=
  names.foldl remove_node g

/-- Two graphs with the same node set (both duplicate-free) and the same
edge set. -/
def GraphRel (g₁ g₂ : DiGraphS) : Prop :=
  g₁.nodes.Nodup ∧ g₂.nodes.Nodup ∧
    (∀ x, x ∈ g₁.nodes ↔ x ∈ g₂.nodes) ∧
    (∀ p : String × String, p ∈ g₁.edges ↔ p ∈ g₂.edges)

/-- The graph `validate`/`build` actually inspects: the builder's graph
after one `add_edges` sweep. -/
def builtGraph (b : DependenciesBuilder) : DiGraphS := (add_edges b).graph

/-- Two builders have the same observable outcome: `build` fails with the
same error, or succeeds on both with tranche lists of equal length whose
tranches are pairwise equal as sets. -/
def SameOutcome (b₁ b₂ : DependenciesBuilder) : Prop :=
  (∀ e, build b₁ = .error e ↔ build b₂ = .error e) ∧
  (∀ d₁, build b₁ = .ok d₁ → ∃ d₂ ts₁ ts₂,
    build b₂ = .ok d₂ ∧
    (∀ fuel, d₁.graph.nodes.length ≤ fuel →
      d₁.generate_tranches fuel = some (.ok ts₁)) ∧
    (∀ fuel, d₂.graph.nodes.length ≤ fuel →
      d₂.generate_tranches fuel = some (.ok ts₂)) ∧
    ts₁.length = ts₂.length ∧
    (∀ i x, x ∈ ts₁.getD i [] ↔ x ∈ ts₂.getD i []))

/-- Builders that are equal except that dependency lists and the
accumulated dependency pool agree only up to membership. -/
def BuilderRel (b₁ b₂ : DependenciesBuilder) : Prop :=
  b₁.all_elements = b₂.all_elements ∧
  b₁.graph = b₂.graph ∧
  (∀ x, x ∈ b₁.all_dependencies ↔ x ∈ b₂.all_dependencies) ∧
  (∀ n, (mapGet b₁.dependency_map n).isSome
      = (mapGet b₂.dependency_map n).isSome) ∧
  (∀ n x, (∃ l, mapGet b₁.dependency_map n = some l ∧ x ∈ l) ↔
          (∃ l, mapGet b₂.dependency_map n = some l ∧ x ∈ l))

end Depper

namespace Depper

/-! ## Association-list lemmas for the dependency map -/

theorem mapGet_cons (a : String) (w : List String)
    (rest : List (String × List String)) (k : String) :
    mapGet ((a, w) :: rest) k = if a = k then some w else mapGet rest k := rfl

theorem mapSet_cons (a : String) (w : List String)
    (rest : List (String × List String)) (k : String) (v : List String) :
    mapSet ((a, w) :: rest) k v
      = (if a = k then (k, v) else (a, w)) :: mapSet rest k v := rfl

theorem mapGet_mapSet_self {m : List (String × List String)} {k : String}
    {v : List String} (h : (mapGet m k).isSome) :
    mapGet (mapSet m k v) k = some v := by
  induction m with
  | nil => simp [mapGet] at h
  | cons p rest ih =>
    obtain ⟨a, w⟩ := p
    by_cases hk : a = k
    · rw [mapSet_cons, if_pos hk, mapGet_cons, if_pos rfl]
    · rw [mapGet_cons, if_neg hk] at h
      rw [mapSet_cons, if_neg hk, mapGet_cons, if_neg hk]
      exact ih h

theorem mapGet_mapSet_ne {m : List (String × List String)} {k k' : String}
    {v : List String} (h : k ≠ k') :
    mapGet (mapSet m k v) k' = mapGet m k' := by
  induction m with
  | nil => simp [mapSet, mapGet]
  | cons p rest ih =>
    obtain ⟨a, w⟩ := p
    by_cases hk : a = k
    · rw [mapSet_cons, if_pos hk, mapGet_cons, if_neg h, mapGet_cons,
        if_neg (hk ▸ h : a ≠ k')]
      exact ih
    · by_cases hk' : a = k'
      · rw [mapSet_cons, if_neg hk, mapGet_cons, if_pos hk', mapGet_cons, if_pos hk']
      · rw [mapSet_cons, if_neg hk, mapGet_cons, if_neg hk', mapGet_cons, if_neg hk']
        exact ih

theorem mapGet_append (m₁ m₂ : List (String × List String)) (k : String) :
    mapGet (m₁ ++ m₂) k = (mapGet m₁ k).or (mapGet m₂ k) := by
  induction m₁ with
  | nil => simp [mapGet]
  | cons p rest ih =>
    obtain ⟨a, w⟩ := p
    by_cases hk : a = k
    · rw [List.cons_append, mapGet_cons, mapGet_cons, if_pos hk, if_pos hk]
      rfl
    · rw [List.cons_append, mapGet_cons, mapGet_cons, if_neg hk, if_neg hk]
      exact ih

theorem keys_mapSet (m : List (String × List String)) (k : String)
    (v : List String) :
    (mapSet m k v).map Prod.fst = m.map Prod.fst := by
  induction m with
  | nil => rfl
  | cons p rest ih =>
    obtain ⟨a, w⟩ := p
    by_cases hk : a = k
    · rw [mapSet_cons, if_pos hk, List.map_cons, List.map_cons, ih]
      subst hk
      rfl
    · rw [mapSet_cons, if_neg hk, List.map_cons, List.map_cons, ih]

theorem mapGet_isSome_iff {m : List (String × List String)} {k : String} :
    (mapGet m k).isSome ↔ k ∈ m.map Prod.fst := by
  induction m with
  | nil => simp [mapGet]
  | cons p rest ih =>
    obtain ⟨a, w⟩ := p
    by_cases hk : a = k
    · rw [mapGet_cons, if_pos hk]
      simp [hk]
    · rw [mapGet_cons, if_neg hk]
      simp [ih, Ne.symm hk]

theorem mapGet_eq_some_mem {m : List (String × List String)} {k : String}
    {v : List String} (h : mapGet m k = some v) : (k, v) ∈ m := by
  induction m with
  | nil => simp [mapGet] at h
  | cons p rest ih =>
    obtain ⟨a, w⟩ := p
    by_cases hk : a = k
    · rw [mapGet_cons, if_pos hk] at h
      subst hk
      obtain rfl : w = v := by injection h
      exact List.mem_cons_self _ _
    · rw [mapGet_cons, if_neg hk] at h
      exact List.mem_cons_of_mem _ (ih h)

theorem mem_mapGet_of_nodup {m : List (String × List String)}
    (hn : (m.map Prod.fst).Nodup) {k : String} {v : List String}
    (h : (k, v) ∈ m) : mapGet m k = some v := by
  induction m with
  | nil => simp at h
  | cons p rest ih =>
    simp only [List.map_cons, List.nodup_cons] at hn
    rcases List.mem_cons.mp h with h | h
    · subst h
      simp [mapGet]
    · by_cases hk : p.1 = k
      · exact absurd (hk ▸ List.mem_map_of_mem Prod.fst h) hn.1
      · simp only [mapGet, hk, if_false]
        exact ih hn.2 h

end Depper

namespace Depper

/-! ## Builder invariants -/

theorem inv_builder : Inv Dependencies.builder := by
  constructor <;> simp [Dependencies.builder, mapGet]

theorem add_element_some {b : DependenciesBuilder} {name : String}
    {ds l : List String} (h : mapGet b.dependency_map name = some l) :
    add_element b name ds =
      { b with
        all_dependencies := b.all_dependencies ++ ds
        dependency_map := mapSet b.dependency_map name ds } := by
  unfold add_element
  rw [h]

theorem add_element_none {b : DependenciesBuilder} {name : String}
    {ds : List String} (h : mapGet b.dependency_map name = none) :
    add_element b name ds =
      { b with
        all_dependencies := b.all_dependencies ++ ds
        all_elements := b.all_elements ++ [name]
        graph := { b.graph with nodes := b.graph.nodes ++ [name] }
        dependency_map := b.dependency_map ++ [(name, ds)] } := by
  unfold add_element
  rw [h]

theorem inv_add_element {b : DependenciesBuilder} (h : Inv b)
    (name : String) (ds : List String) : Inv (add_element b name ds) := by
  cases hg : mapGet b.dependency_map name with
  | some l =>
    rw [add_element_some hg]
    refine ⟨h.nodes_eq, h.elements_nodup, ?_, ?_, h.edges_nil⟩
    · intro n
      rw [mapGet_isSome_iff, keys_mapSet, ← mapGet_isSome_iff]
      exact h.keys_iff n
    · rw [keys_mapSet]
      exact h.keys_nodup
  | none =>
    rw [add_element_none hg]
    have hnotmem : name ∉ b.all_elements := by
      rw [← h.keys_iff, hg]
      simp
    refine ⟨?_, ?_, ?_, ?_, h.edges_nil⟩
    · simp [h.nodes_eq]
    · simp [List.nodup_append, h.elements_nodup, hnotmem]
    · intro n
      rw [mapGet_append]
      by_cases hn : name = n
      · subst hn
        rw [hg]
        simp [mapGet]
      · rw [show mapGet [(name, ds)] n = none from by rw [mapGet_cons, if_neg hn]; rfl]
        rw [Option.or_none, h.keys_iff n]
        simp [Ne.symm hn]
    · have : name ∉ b.dependency_map.map Prod.fst := by
        rw [← mapGet_isSome_iff, hg]
        simp
      simp [List.nodup_append, h.keys_nodup, this]

theorem inv_foldl {b : DependenciesBuilder} (h : Inv b)
    (regs : List (String × List String)) :
    Inv (regs.foldl (fun b r => add_element b r.1 r.2) b) := by
  induction regs generalizing b with
  | nil => exact h
  | cons r rest ih => exact ih (inv_add_element h r.1 r.2)

theorem inv_buildFrom (regs : List (String × List String)) : Inv (buildFrom regs) :=
  inv_foldl inv_builder regs

/-- `add_element` always extends `all_dependencies` by exactly the passed
list, in both branches. -/
theorem add_element_all_dependencies (b : DependenciesBuilder)
    (name : String) (ds : List String) :
    (add_element b name ds).all_dependencies = b.all_dependencies ++ ds := by
  cases hg : mapGet b.dependency_map name with
  | some l => rw [add_element_some hg]
  | none => rw [add_element_none hg]

/-- `all_dependencies` of a registration sequence is the concatenation of
every dependency list ever passed, overwritten registrations included. -/
theorem all_dependencies_foldl (regs : List (String × List String))
    (b : DependenciesBuilder) :
    (regs.foldl (fun b r => add_element b r.1 r.2) b).all_dependencies
      = b.all_dependencies ++ regs.flatMap Prod.snd := by
  induction regs generalizing b with
  | nil => simp
  | cons r rest ih =>
    simp only [List.foldl_cons, List.flatMap_cons]
    rw [ih, add_element_all_dependencies, List.append_assoc]

theorem all_dependencies_buildFrom (regs : List (String × List String)) :
    (buildFrom regs).all_dependencies = regs.flatMap Prod.snd := by
  have := all_dependencies_foldl regs Dependencies.builder
  simpa [buildFrom, Dependencies.builder] using this

/-- Membership in `all_elements` after a registration sequence: exactly the
names registered (first registrations create elements, re-registrations are
absorbed). -/
theorem mem_all_elements_foldl {b : DependenciesBuilder} (h : Inv b)
    (regs : List (String × List String)) (x : String) :
    x ∈ (regs.foldl (fun b r => add_element b r.1 r.2) b).all_elements
      ↔ x ∈ b.all_elements ∨ x ∈ regs.map Prod.fst := by
  induction regs generalizing b with
  | nil => simp
  | cons r rest ih =>
    simp only [List.foldl_cons, List.map_cons, List.mem_cons]
    rw [ih (inv_add_element h r.1 r.2)]
    cases hg : mapGet b.dependency_map r.1 with
    | some l =>
      rw [add_element_some hg]
      have hr : r.1 ∈ b.all_elements := (h.keys_iff r.1).mp (by simp [hg])
      constructor
      · rintro (hx | hx)
        · exact Or.inl hx
        · exact Or.inr (Or.inr hx)
      · rintro (hx | hx | hx)
        · exact Or.inl hx
        · exact Or.inl (hx ▸ hr)
        · exact Or.inr hx
    | none =>
      rw [add_element_none hg]
      simp only [List.mem_append, List.mem_singleton]
      constructor
      · rintro ((hx | hx) | hx)
        · exact Or.inl hx
        · exact Or.inr (Or.inl hx)
        · exact Or.inr (Or.inr hx)
      · rintro (hx | hx | hx)
        · exact Or.inl (Or.inl hx)
        · exact Or.inl (Or.inr hx)
        · exact Or.inr hx

theorem mem_all_elements_buildFrom (regs : List (String × List String)) (x : String) :
    x ∈ (buildFrom regs).all_elements ↔ x ∈ regs.map Prod.fst := by
  have := mem_all_elements_foldl inv_builder regs x
  simpa [buildFrom, Dependencies.builder] using this

end Depper

namespace Depper

/-! ## One pass of tranche generation -/

theorem removeLoop_ok :
    ∀ (names : List String) (g : DiGraphS) (acc : List String),
      (∀ a, names.count a ≤ g.nodes.count a) →
      removeLoop names g acc = .ok (acc ++ names, removeNodesSeq g names) := by
  intro names
  induction names with
  | nil =>
    intro g acc _
    simp [removeLoop, removeNodesSeq]
  | cons n rest ih =>
    intro g acc h
    have hmem : n ∈ g.nodes := by
      have h1 : 1 ≤ (n :: rest).count n := by simp [List.count_cons]
      have := le_trans h1 (h n)
      exact List.count_pos_iff.mp (by omega)
    have hfind : ∃ x, find_node_by_name g n = some x := by
      have : (find_node_by_name g n).isSome := by
        unfold find_node_by_name
        rw [List.find?_isSome]
        exact ⟨n, hmem, by simp⟩
      exact Option.isSome_iff_exists.mp this
    obtain ⟨x, hx⟩ := hfind
    unfold removeLoop
    rw [hx]
    have hcount : ∀ a, rest.count a ≤ (remove_node g n).nodes.count a := by
      intro a
      have h1 := h a
      rw [List.count_cons] at h1
      show rest.count a ≤ (g.nodes.erase n).count a
      rw [List.count_erase]
      by_cases han : a = n
      · subst han
        simp at h1 ⊢
        omega
      · have hba : (n == a) = false := by
          simp only [beq_eq_false_iff_ne]
          exact fun hna => han hna.symm
        rw [hba] at h1 ⊢
        simp at h1 ⊢
        omega
    rw [ih (remove_node g n) (acc ++ [n]) hcount]
    simp [removeNodesSeq]

theorem count_node_to_remove_le (g : DiGraphS) (a : String) :
    (node_to_remove g).count a ≤ g.nodes.count a :=
  (List.filter_sublist g.nodes).count_le a

/-- The removal loop of a pass never fails: it removes exactly the
snapshot `node_to_remove` and emits it as the new layer. -/
theorem tranchePass_eq (g : DiGraphS) :
    tranchePass g = .ok (node_to_remove g, removeNodesSeq g (node_to_remove g)) := by
  have := removeLoop_ok (node_to_remove g) g [] (count_node_to_remove_le g)
  simpa [tranchePass] using this

theorem mem_edges_removeNodesSeq {names : List String} {g : DiGraphS}
    {e : String × String} :
    e ∈ (removeNodesSeq g names).edges
      ↔ e ∈ g.edges ∧ e.1 ∉ names ∧ e.2 ∉ names := by
  induction names generalizing g with
  | nil => simp [removeNodesSeq]
  | cons n rest ih =>
    show e ∈ (removeNodesSeq (remove_node g n) rest).edges ↔ _
    rw [ih]
    show e ∈ (g.edges.filter _) ∧ _ ↔ _
    rw [List.mem_filter]
    simp only [List.mem_cons, not_or]
    constructor
    · rintro ⟨⟨he, hb⟩, h1, h2⟩
      simp only [Bool.and_eq_true, Bool.not_eq_true', beq_eq_false_iff_ne] at hb
      exact ⟨he, ⟨hb.1, h1⟩, hb.2, h2⟩
    · rintro ⟨he, ⟨h1n, h1⟩, h2n, h2⟩
      refine ⟨⟨he, ?_⟩, h1, h2⟩
      simp only [Bool.and_eq_true, Bool.not_eq_true', beq_eq_false_iff_ne]
      exact ⟨h1n, h2n⟩

theorem mem_nodes_of_removeNodesSeq {names : List String} {g : DiGraphS}
    {x : String} (h : x ∈ (removeNodesSeq g names).nodes) : x ∈ g.nodes := by
  induction names generalizing g with
  | nil => exact h
  | cons n rest ih =>
    have := ih (g := remove_node g n) h
    exact List.mem_of_mem_erase this

theorem mem_nodes_removeNodesSeq_of_not_mem {names : List String} {g : DiGraphS}
    {x : String} (hx : x ∈ g.nodes) (hn : x ∉ names) :
    x ∈ (removeNodesSeq g names).nodes := by
  induction names generalizing g with
  | nil => exact hx
  | cons n rest ih =>
    simp only [List.mem_cons, not_or] at hn
    exact ih (g := remove_node g n)
      ((List.mem_erase_of_ne hn.1).mpr hx) hn.2

theorem nodes_removeNodesSeq_nodup {names : List String} {g : DiGraphS}
    (h : g.nodes.Nodup) : (removeNodesSeq g names).nodes.Nodup := by
  induction names generalizing g with
  | nil => exact h
  | cons n rest ih => exact ih (g := remove_node g n) (h.erase n)

theorem not_mem_nodes_removeNodesSeq {names : List String} {g : DiGraphS}
    {x : String} (h : g.nodes.Nodup) (hx : x ∈ names) :
    x ∉ (removeNodesSeq g names).nodes := by
  induction names generalizing g with
  | nil => simp at hx
  | cons n rest ih =>
    rcases List.mem_cons.mp hx with rfl | hx
    · intro hcon
      have hmem : x ∈ (remove_node g x).nodes :=
        mem_nodes_of_removeNodesSeq hcon
      exact ((List.Nodup.mem_erase_iff h).mp hmem).1 rfl
    · exact ih (g := remove_node g n) (h.erase n) hx

theorem mem_nodes_removeNodesSeq_iff {names : List String} {g : DiGraphS}
    {x : String} (h : g.nodes.Nodup) :
    x ∈ (removeNodesSeq g names).nodes ↔ x ∈ g.nodes ∧ x ∉ names := by
  constructor
  · intro hx
    refine ⟨mem_nodes_of_removeNodesSeq hx, fun hmem => ?_⟩
    exact not_mem_nodes_removeNodesSeq h hmem hx
  · rintro ⟨hx, hn⟩
    exact mem_nodes_removeNodesSeq_of_not_mem hx hn

/-- Removing a multiset of names contained in the node list splits it, up
to permutation, into the removed names and the remaining nodes. -/
theorem perm_removeNodesSeq :
    ∀ (names : List String) (g : DiGraphS),
      (∀ a, names.count a ≤ g.nodes.count a) →
      (names ++ (removeNodesSeq g names).nodes).Perm g.nodes := by
  intro names
  induction names with
  | nil =>
    intro g _
    simp [removeNodesSeq]
  | cons n rest ih =>
    intro g h
    have hmem : n ∈ g.nodes := by
      have h1 : 1 ≤ (n :: rest).count n := by simp [List.count_cons]
      have := le_trans h1 (h n)
      exact List.count_pos_iff.mp (by omega)
    have hcount : ∀ a, rest.count a ≤ (remove_node g n).nodes.count a := by
      intro a
      have h1 := h a
      rw [List.count_cons] at h1
      show rest.count a ≤ (g.nodes.erase n).count a
      rw [List.count_erase]
      by_cases han : a = n
      · subst han
        simp at h1 ⊢
        omega
      · have hba : (n == a) = false := by
          simp only [beq_eq_false_iff_ne]
          exact fun hna => han hna.symm
        rw [hba] at h1 ⊢
        simp at h1 ⊢
        omega
    have hstep : (rest ++ (removeNodesSeq (remove_node g n) rest).nodes).Perm
        (g.nodes.erase n) := ih (remove_node g n) hcount
    have e1 : (n :: rest) ++ (removeNodesSeq g (n :: rest)).nodes
        = n :: (rest ++ (removeNodesSeq (remove_node g n) rest).nodes) := by
      simp [removeNodesSeq]
    rw [e1]
    exact (hstep.cons n).trans (List.perm_cons_erase hmem).symm

theorem zeroOutDegree_iff {g : DiGraphS} {n : String} :
    zeroOutDegree g n = true ↔ ∀ d, (n, d) ∉ g.edges := by
  unfold zeroOutDegree
  rw [beq_iff_eq, List.length_eq_zero, List.filter_eq_nil_iff]
  constructor
  · intro h d hd
    exact absurd (by simp : (((n, d) : String × String).1 == n) = true) (h _ hd)
  · intro h e he hcon
    rw [beq_iff_eq] at hcon
    refine h e.2 ?_
    rw [← hcon]
    simpa using he

theorem mem_node_to_remove {g : DiGraphS} {x : String} :
    x ∈ node_to_remove g ↔ x ∈ g.nodes ∧ ∀ d, (x, d) ∉ g.edges := by
  unfold node_to_remove
  rw [List.mem_filter, zeroOutDegree_iff]

theorem node_to_remove_nodup {g : DiGraphS} (h : g.nodes.Nodup) :
    (node_to_remove g).Nodup := h.filter _

end Depper

namespace Depper

/-! ## The tranche loop -/

/-- The accumulator of `tranchesLoop` is a pure prefix of the result. -/
theorem tranchesLoop_acc (fuel : Nat) :
    ∀ (g : DiGraphS) (acc : List (List String)),
      tranchesLoop fuel g acc
        = (tranchesLoop fuel g []).map (Except.map (fun r => acc ++ r)) := by
  induction fuel with
  | zero =>
    intro g acc
    unfold tranchesLoop
    by_cases hg : g.nodes.isEmpty
    · simp [hg, Except.map]
    · simp [hg]
  | succ fuel ih =>
    intro g acc
    unfold tranchesLoop
    by_cases hg : g.nodes.isEmpty
    · simp [hg, Except.map]
    · simp only [if_neg hg, tranchePass_eq]
      rw [ih _ (acc ++ [node_to_remove g]), ih _ ([] ++ [node_to_remove g])]
      cases hres : tranchesLoop fuel (removeNodesSeq g (node_to_remove g)) [] with
      | none => simp
      | some r =>
        cases r with
        | error e => simp [Except.map]
        | ok ts => simp [Except.map]

/-- The tranche loop never produces the `"Node not found"` error: every
pass removes exactly the nodes it just collected. -/
theorem tranchesLoop_ne_error (fuel : Nat) :
    ∀ (g : DiGraphS) (acc : List (List String)) (e : String),
      tranchesLoop fuel g acc ≠ some (.error e) := by
  induction fuel with
  | zero =>
    intro g acc e
    unfold tranchesLoop
    by_cases hg : g.nodes.isEmpty <;> simp [hg]
  | succ fuel ih =>
    intro g acc e
    unfold tranchesLoop
    by_cases hg : g.nodes.isEmpty
    · simp [hg]
    · simp only [if_neg hg, tranchePass_eq]
      exact ih _ _ e

/-- More fuel never changes a loop result that already finished. -/
theorem tranchesLoop_mono {fuel fuel' : Nat} :
    ∀ {g : DiGraphS} {acc : List (List String)} {r},
      tranchesLoop fuel g acc = some r → fuel ≤ fuel' →
      tranchesLoop fuel' g acc = some r := by
  induction fuel generalizing fuel' with
  | zero =>
    intro g acc r h _
    unfold tranchesLoop at h
    by_cases hg : g.nodes.isEmpty
    · simp only [hg, if_true] at h
      unfold tranchesLoop
      simp [hg, h]
    · simp [hg] at h
  | succ fuel ih =>
    intro g acc r h hle
    unfold tranchesLoop at h
    by_cases hg : g.nodes.isEmpty
    · simp only [hg, if_true] at h
      unfold tranchesLoop
      simp [hg, h]
    · simp only [if_neg hg, tranchePass_eq] at h
      obtain ⟨fuel'', rfl⟩ : ∃ k, fuel' = k + 1 := by
        cases fuel' with
        | zero => omega
        | succ k => exact ⟨k, rfl⟩
      unfold tranchesLoop
      simp only [if_neg hg, tranchePass_eq]
      exact ih h (by omega)

/-- Partition: a finished loop's tranches concatenate to a permutation of
the nodes the loop started from (beyond the accumulator). -/
theorem tranchesLoop_perm (fuel : Nat) :
    ∀ (g : DiGraphS) (acc ts : List (List String)),
      tranchesLoop fuel g acc = some (.ok ts) →
      ∃ rest, ts = acc ++ rest ∧ rest.flatten.Perm g.nodes := by
  induction fuel with
  | zero =>
    intro g acc ts h
    unfold tranchesLoop at h
    by_cases hg : g.nodes.isEmpty
    · simp only [hg, if_true, Option.some.injEq, Except.ok.injEq] at h
      subst h
      exact ⟨[], by simp, by simp [List.isEmpty_iff.mp hg]⟩
    · simp [hg] at h
  | succ fuel ih =>
    intro g acc ts h
    unfold tranchesLoop at h
    by_cases hg : g.nodes.isEmpty
    · simp only [hg, if_true, Option.some.injEq, Except.ok.injEq] at h
      subst h
      exact ⟨[], by simp, by simp [List.isEmpty_iff.mp hg]⟩
    · simp only [if_neg hg, tranchePass_eq] at h
      obtain ⟨rest', hts, hperm⟩ := ih _ _ _ h
      refine ⟨node_to_remove g :: rest', by simpa using hts, ?_⟩
      have hsplit := perm_removeNodesSeq (node_to_remove g) g (count_node_to_remove_le g)
      simp only [List.flatten_cons]
      exact ((hperm.append_left (node_to_remove g)).trans hsplit)

end Depper

namespace Depper

/-! ## Cycles trap the loop -/

/-- A "trap" — a nonempty set of nodes each having an edge to another trap
member — survives every pass, so the loop never terminates.  This needs no
uniqueness of names; it only needs edge sources to be actual nodes. -/
theorem trap_tranchesLoop (T : String → Prop) :
    ∀ (fuel : Nat) (g : DiGraphS) (acc : List (List String)),
      (∃ x, T x) →
      (∀ x, T x → x ∈ g.nodes) →
      (∀ x, T x → ∃ y, T y ∧ (x, y) ∈ g.edges) →
      tranchesLoop fuel g acc = none := by
  intro fuel
  induction fuel with
  | zero =>
    intro g acc hne hsub _
    obtain ⟨x, hx⟩ := hne
    have : ¬g.nodes.isEmpty := by
      rw [List.isEmpty_iff]
      intro hnil
      rw [hnil] at hsub
      exact absurd (hsub x hx) (List.not_mem_nil x)
    unfold tranchesLoop
    simp [this]
  | succ fuel ih =>
    intro g acc hne hsub hstep
    obtain ⟨x, hx⟩ := hne
    have hgne : ¬g.nodes.isEmpty := by
      rw [List.isEmpty_iff]
      intro hnil
      rw [hnil] at hsub
      exact absurd (hsub x hx) (List.not_mem_nil x)
    have hnotrm : ∀ z, T z → z ∉ node_to_remove g := by
      intro z hz hmem
      obtain ⟨y, _, hedge⟩ := hstep z hz
      exact (mem_node_to_remove.mp hmem).2 y hedge
    unfold tranchesLoop
    simp only [if_neg hgne, tranchePass_eq]
    refine ih (removeNodesSeq g (node_to_remove g)) _ ⟨x, hx⟩ ?_ ?_
    · intro z hz
      exact mem_nodes_removeNodesSeq_of_not_mem (hsub z hz) (hnotrm z hz)
    · intro z hz
      obtain ⟨y, hy, hedge⟩ := hstep z hz
      refine ⟨y, hy, ?_⟩
      rw [mem_edges_removeNodesSeq]
      exact ⟨hedge, hnotrm z hz, hnotrm y hy⟩

/-- A directed cycle (through the edge relation) yields a trap: all the
nodes that can reach the cycle node. -/
theorem cycle_tranchesLoop {g : DiGraphS} {n : String}
    (hwf : ∀ e ∈ g.edges, e.1 ∈ g.nodes)
    (hcyc : Relation.TransGen (edgeRel g) n n) :
    ∀ (fuel : Nat) (acc : List (List String)), tranchesLoop fuel g acc = none := by
  intro fuel acc
  have hstep : ∀ x, Relation.ReflTransGen (edgeRel g) x n →
      ∃ y, Relation.ReflTransGen (edgeRel g) y n ∧ (x, y) ∈ g.edges := by
    intro x hx
    rcases Relation.ReflTransGen.cases_head hx with rfl | ⟨c, hc, htail⟩
    · obtain ⟨c, hc, htail⟩ := Relation.TransGen.head'_iff.mp hcyc
      exact ⟨c, htail, hc⟩
    · exact ⟨c, htail, hc⟩
  refine trap_tranchesLoop (fun x => Relation.ReflTransGen (edgeRel g) x n) fuel g acc
    ⟨n, Relation.ReflTransGen.refl⟩ ?_ hstep
  intro x hx
  obtain ⟨y, _, hedge⟩ := hstep x hx
  exact hwf (x, y) hedge

/-! ## Dependency precedence inside a finished loop -/

/-- If the loop finishes and an edge `(A, B)` is present at its start,
`B`'s tranche comes strictly before `A`'s. -/
theorem tranchesLoop_prec (fuel : Nat) :
    ∀ (g : DiGraphS) (ts : List (List String)),
      g.nodes.Nodup →
      tranchesLoop fuel g [] = some (.ok ts) →
      ∀ A B, (A, B) ∈ g.edges →
        ∀ i j tA tB, ts.get? i = some tA → A ∈ tA →
          ts.get? j = some tB → B ∈ tB → j < i := by
  induction fuel with
  | zero =>
    intro g ts hnd h A B hAB i j tA tB hi hA hj hB
    unfold tranchesLoop at h
    by_cases hg : g.nodes.isEmpty
    · simp only [hg, if_true, Option.some.injEq, Except.ok.injEq] at h
      subst h
      simp at hi
    · simp [hg] at h
  | succ fuel ih =>
    intro g ts hnd h A B hAB i j tA tB hi hA hj hB
    unfold tranchesLoop at h
    by_cases hg : g.nodes.isEmpty
    · simp only [hg, if_true, Option.some.injEq, Except.ok.injEq] at h
      subst h
      simp at hi
    · simp only [if_neg hg, tranchePass_eq] at h
      rw [tranchesLoop_acc] at h
      cases hres : tranchesLoop fuel (removeNodesSeq g (node_to_remove g)) [] with
      | none => rw [hres] at h; simp at h
      | some r =>
        cases r with
        | error e => rw [hres] at h; simp [Except.map] at h
        | ok rest =>
          rw [hres] at h
          have hts : ts = node_to_remove g :: rest := by
            have h' : (some (Except.ok ([] ++ [node_to_remove g] ++ rest)) :
                Option (Except String (List (List String)))) = some (.ok ts) := h
            simp at h'
            exact h'.symm
          subst hts
          have hAnot : A ∉ node_to_remove g := by
            intro hmem
            exact (mem_node_to_remove.mp hmem).2 B hAB
          have hg' : (removeNodesSeq g (node_to_remove g)).nodes.Nodup :=
            nodes_removeNodesSeq_nodup hnd
          cases i with
          | zero =>
            simp only [List.get?_cons_zero, Option.some.injEq] at hi
            subst hi
            exact absurd hA hAnot
          | succ i' =>
            cases j with
            | zero => omega
            | succ j' =>
              simp only [List.get?_cons_succ] at hi hj
              have hBnot : B ∉ node_to_remove g := by
                have hBmem : B ∈ rest.flatten := by
                  rw [List.mem_flatten]
                  exact ⟨tB, List.get?_mem hj, hB⟩
                obtain ⟨rest', hr, hperm⟩ := tranchesLoop_perm fuel _ [] rest hres
                simp only [List.nil_append] at hr
                subst hr
                have : B ∈ (removeNodesSeq g (node_to_remove g)).nodes :=
                  hperm.mem_iff.mp hBmem
                exact fun hmem => not_mem_nodes_removeNodesSeq hnd hmem this
              have hedge' : (A, B) ∈ (removeNodesSeq g (node_to_remove g)).edges := by
                rw [mem_edges_removeNodesSeq]
                exact ⟨hAB, hAnot, hBnot⟩
              have := ih _ rest hg' hres A B hedge' i' j' tA tB hi hA hj hB
              omega

end Depper

namespace Depper

/-! ## Bisimulation: the loop's observable output depends only on the node
set and the edge set -/

theorem GraphRel.layer_iff {g₁ g₂ : DiGraphS} (h : GraphRel g₁ g₂) (x : String) :
    x ∈ node_to_remove g₁ ↔ x ∈ node_to_remove g₂ := by
  rw [mem_node_to_remove, mem_node_to_remove, h.2.2.1 x]
  constructor
  · rintro ⟨hx, hd⟩
    exact ⟨hx, fun d hdm => hd d ((h.2.2.2 (x, d)).mpr hdm)⟩
  · rintro ⟨hx, hd⟩
    exact ⟨hx, fun d hdm => hd d ((h.2.2.2 (x, d)).mp hdm)⟩

theorem GraphRel.step {g₁ g₂ : DiGraphS} (h : GraphRel g₁ g₂) :
    GraphRel (removeNodesSeq g₁ (node_to_remove g₁))
      (removeNodesSeq g₂ (node_to_remove g₂)) := by
  refine ⟨nodes_removeNodesSeq_nodup h.1, nodes_removeNodesSeq_nodup h.2.1, ?_, ?_⟩
  · intro x
    rw [mem_nodes_removeNodesSeq_iff h.1, mem_nodes_removeNodesSeq_iff h.2.1,
      h.2.2.1 x, h.layer_iff x]
  · intro p
    rw [mem_edges_removeNodesSeq, mem_edges_removeNodesSeq, h.2.2.2 p,
      h.layer_iff p.1, h.layer_iff p.2]

theorem GraphRel.isEmpty_iff {g₁ g₂ : DiGraphS} (h : GraphRel g₁ g₂) :
    g₁.nodes.isEmpty = g₂.nodes.isEmpty := by
  cases h1 : g₁.nodes with
  | nil =>
    cases h2 : g₂.nodes with
    | nil => rfl
    | cons a l =>
      have := (h.2.2.1 a).mpr (by rw [h2]; exact List.mem_cons_self a l)
      rw [h1] at this
      simp at this
  | cons a l =>
    cases h2 : g₂.nodes with
    | nil =>
      have := (h.2.2.1 a).mp (by rw [h1]; exact List.mem_cons_self a l)
      rw [h2] at this
      simp at this
    | cons b l' => rfl

/-- Run-of-the-loop bisimulation: graphs related by `GraphRel` either both
diverge or both finish with pointwise equal tranche sets. -/
theorem tranchesLoop_bisim :
    ∀ (fuel : Nat) (g₁ g₂ : DiGraphS), GraphRel g₁ g₂ →
      (tranchesLoop fuel g₁ [] = none ∧ tranchesLoop fuel g₂ [] = none) ∨
      (∃ ts₁ ts₂, tranchesLoop fuel g₁ [] = some (.ok ts₁) ∧
        tranchesLoop fuel g₂ [] = some (.ok ts₂) ∧
        ts₁.length = ts₂.length ∧
        ∀ i x, x ∈ ts₁.getD i [] ↔ x ∈ ts₂.getD i []) := by
  intro fuel
  induction fuel with
  | zero =>
    intro g₁ g₂ h
    by_cases hg : g₁.nodes.isEmpty
    · right
      refine ⟨[], [], ?_, ?_, rfl, by simp⟩
      · unfold tranchesLoop; simp [hg]
      · unfold tranchesLoop; simp [← h.isEmpty_iff, hg]
    · left
      constructor
      · unfold tranchesLoop; simp [hg]
      · unfold tranchesLoop; simp [← h.isEmpty_iff, hg]
  | succ fuel ih =>
    intro g₁ g₂ h
    by_cases hg : g₁.nodes.isEmpty
    · right
      refine ⟨[], [], ?_, ?_, rfl, by simp⟩
      · unfold tranchesLoop; simp [hg]
      · unfold tranchesLoop; simp [← h.isEmpty_iff, hg]
    · have hg₂ : ¬g₂.nodes.isEmpty = true := by rw [← h.isEmpty_iff]; exact hg
      have hunf₁ : tranchesLoop (fuel + 1) g₁ []
          = tranchesLoop fuel (removeNodesSeq g₁ (node_to_remove g₁))
              ([] ++ [node_to_remove g₁]) := by
        conv_lhs => unfold tranchesLoop
        simp only [if_neg hg, tranchePass_eq]
      have hunf₂ : tranchesLoop (fuel + 1) g₂ []
          = tranchesLoop fuel (removeNodesSeq g₂ (node_to_remove g₂))
              ([] ++ [node_to_remove g₂]) := by
        conv_lhs => unfold tranchesLoop
        simp only [if_neg hg₂, tranchePass_eq]
      rw [hunf₁, hunf₂,
        tranchesLoop_acc fuel (removeNodesSeq g₁ (node_to_remove g₁))
          ([] ++ [node_to_remove g₁]),
        tranchesLoop_acc fuel (removeNodesSeq g₂ (node_to_remove g₂))
          ([] ++ [node_to_remove g₂])]
      rcases ih _ _ h.step with ⟨hn₁, hn₂⟩ | ⟨r₁, r₂, hr₁, hr₂, hlen, hmem⟩
      · left
        rw [hn₁, hn₂]
        simp
      · right
        refine ⟨node_to_remove g₁ :: r₁, node_to_remove g₂ :: r₂, ?_, ?_, ?_, ?_⟩
        · rw [hr₁]; rfl
        · rw [hr₂]; rfl
        · simp [hlen]
        · intro i x
          cases i with
          | zero => simpa using h.layer_iff x
          | succ i' => simpa using hmem i' x

/-! ## Referential-integrity and edge-set lemmas -/

theorem dependencies_are_met_iff {b : DependenciesBuilder} :
    dependencies_are_met b = true
      ↔ ∀ d ∈ b.all_dependencies, d ∈ b.all_elements := by
  unfold dependencies_are_met
  rw [List.all_eq_true]
  constructor
  · intro h d hd
    have := h d hd
    simpa using this
  · intro h d hd
    simpa using h d hd

theorem dependencies_are_met_ext {b₁ b₂ : DependenciesBuilder}
    (hd : ∀ x, x ∈ b₁.all_dependencies ↔ x ∈ b₂.all_dependencies)
    (he : ∀ x, x ∈ b₁.all_elements ↔ x ∈ b₂.all_elements) :
    dependencies_are_met b₁ = dependencies_are_met b₂ := by
  rw [Bool.eq_iff_iff, dependencies_are_met_iff, dependencies_are_met_iff]
  constructor
  · intro h x hx
    exact (he x).mp (h x ((hd x).mpr hx))
  · intro h x hx
    exact (he x).mpr (h x ((hd x).mp hx))

theorem mem_edgesOf {m : List (String × List String)} {a d : String} :
    (a, d) ∈ edgesOf m ↔ ∃ p ∈ m, p.1 = a ∧ d ∈ p.2 := by
  unfold edgesOf
  rw [List.mem_flatMap]
  constructor
  · rintro ⟨p, hp, hmem⟩
    rw [List.mem_map] at hmem
    obtain ⟨d', hd', heq⟩ := hmem
    have h1 : p.1 = a := congrArg Prod.fst heq
    have h2 : d' = d := congrArg Prod.snd heq
    exact ⟨p, hp, h1, h2 ▸ hd'⟩
  · rintro ⟨p, hp, hpa, hd⟩
    exact ⟨p, hp, List.mem_map.mpr ⟨d, hd, by rw [hpa]⟩⟩

theorem mem_edgesOf_iff_mapGet {m : List (String × List String)}
    (hnd : (m.map Prod.fst).Nodup) {a d : String} :
    (a, d) ∈ edgesOf m ↔ ∃ l, mapGet m a = some l ∧ d ∈ l := by
  rw [mem_edgesOf]
  constructor
  · rintro ⟨p, hp, hpa, hd⟩
    refine ⟨p.2, ?_, hd⟩
    rw [← hpa]
    exact mem_mapGet_of_nodup hnd (by simpa using hp)
  · rintro ⟨l, hl, hd⟩
    exact ⟨(a, l), mapGet_eq_some_mem hl, rfl, hd⟩

theorem edgesOf_source_mem {b : DependenciesBuilder} (h : Inv b) :
    ∀ e ∈ edgesOf b.dependency_map, e.1 ∈ b.all_elements := by
  intro e he
  obtain ⟨p, hp, hpa, _⟩ := mem_edgesOf.mp (by
    rw [show e = (e.1, e.2) from rfl] at he
    exact he)
  rw [← hpa]
  rw [← h.keys_iff, mapGet_isSome_iff]
  exact List.mem_map_of_mem Prod.fst hp

end Depper

namespace Depper

/-! ## Characterizing `build` -/

theorem builtGraph_nodes (b : DependenciesBuilder) :
    (builtGraph b).nodes = b.graph.nodes := rfl

theorem builtGraph_edges {b : DependenciesBuilder} (h : Inv b) :
    (builtGraph b).edges = edgesOf b.dependency_map := by
  show b.graph.edges ++ edgesOf b.dependency_map = _
  rw [h.edges_nil]
  rfl

theorem is_cyclic_of_none {g : DiGraphS}
    (h : tranchesLoop g.nodes.length g [] = none) :
    is_cyclic_directed g = true := by
  unfold is_cyclic_directed
  rw [h]

theorem is_cyclic_of_ok {g : DiGraphS} {ts : List (List String)}
    (h : tranchesLoop g.nodes.length g [] = some (.ok ts)) :
    is_cyclic_directed g = false := by
  unfold is_cyclic_directed
  rw [h]

theorem is_cyclic_eq_false_iff {g : DiGraphS} :
    is_cyclic_directed g = false
      ↔ ∃ ts, tranchesLoop g.nodes.length g [] = some (.ok ts) := by
  constructor
  · intro h
    unfold is_cyclic_directed at h
    cases hres : tranchesLoop g.nodes.length g [] with
    | none => rw [hres] at h; simp at h
    | some r =>
      cases r with
      | error e => rw [hres] at h; simp at h
      | ok ts => exact ⟨ts, rfl⟩
  · rintro ⟨ts, hts⟩
    exact is_cyclic_of_ok hts

theorem validate_eq_missing {b : DependenciesBuilder}
    (h : dependencies_are_met b = false) :
    validate b = .error .missingDependency := by
  unfold validate
  rw [h]
  rfl

theorem validate_eq_cyclic {b : DependenciesBuilder}
    (hmet : dependencies_are_met b = true)
    (hcyc : is_cyclic_directed (builtGraph b) = true) :
    validate b = .error .cyclicDependency := by
  have hcyc' : is_cyclic_directed (add_edges b).graph = true := hcyc
  simp [validate, no_cyclic_dependencies, hmet, hcyc']

theorem validate_eq_ok {b : DependenciesBuilder}
    (hmet : dependencies_are_met b = true)
    (hcyc : is_cyclic_directed (builtGraph b) = false) :
    validate b = .ok
      { add_edges b with
        graph := { (add_edges b).graph with edges := [] } } := by
  have hcyc' : is_cyclic_directed (add_edges b).graph = false := hcyc
  simp [validate, no_cyclic_dependencies, hmet, hcyc']

theorem build_eq_missing {b : DependenciesBuilder}
    (h : dependencies_are_met b = false) :
    build b = .error .missingDependency := by
  unfold build
  rw [validate_eq_missing h]

theorem build_eq_cyclic {b : DependenciesBuilder}
    (hmet : dependencies_are_met b = true)
    (hcyc : is_cyclic_directed (builtGraph b) = true) :
    build b = .error .cyclicDependency := by
  unfold build
  rw [validate_eq_cyclic hmet hcyc]

theorem build_eq_ok {b : DependenciesBuilder} (hI : Inv b)
    (hmet : dependencies_are_met b = true)
    (hcyc : is_cyclic_directed (builtGraph b) = false) :
    build b = .ok ⟨builtGraph b⟩ := by
  unfold build
  rw [validate_eq_ok hmet hcyc]
  show Except.ok (⟨⟨b.graph.nodes, [] ++ edgesOf b.dependency_map⟩⟩ : Dependencies) = _
  unfold builtGraph add_edges
  rw [hI.edges_nil]

theorem build_ok_elim {b : DependenciesBuilder} {d : Dependencies} (hI : Inv b)
    (h : build b = .ok d) :
    dependencies_are_met b = true ∧ is_cyclic_directed (builtGraph b) = false ∧
      d = ⟨builtGraph b⟩ := by
  cases hmet : dependencies_are_met b with
  | false =>
    rw [build_eq_missing hmet] at h
    simp at h
  | true =>
    cases hcyc : is_cyclic_directed (builtGraph b) with
    | true =>
      rw [build_eq_cyclic hmet hcyc] at h
      simp at h
    | false =>
      rw [build_eq_ok hI hmet hcyc] at h
      refine ⟨rfl, rfl, ?_⟩
      injection h with h'
      exact h'.symm

end Depper

namespace Depper

/-! ## Helper lemmas shared between claims -/

theorem generate_of_build_ok {regs : List (String × List String)} {d : Dependencies}
    (h : build (buildFrom regs) = .ok d) :
    ∃ ts, ∀ fuel, d.graph.nodes.length ≤ fuel →
      d.generate_tranches fuel = some (.ok ts) := by
  obtain ⟨hmet, hcyc, rfl⟩ := build_ok_elim (inv_buildFrom regs) h
  obtain ⟨ts, hts⟩ := is_cyclic_eq_false_iff.mp hcyc
  exact ⟨ts, fun fuel hf => tranchesLoop_mono hts hf⟩

theorem prec_core {b : DependenciesBuilder} {d : Dependencies}
    {ts : List (List String)} {A B : String} {l : List String}
    {i j : Nat} {tA tB : List String} {fuel : Nat} (hI : Inv b)
    (hb : build b = .ok d)
    (ht : d.generate_tranches fuel = some (.ok ts))
    (hl : mapGet b.dependency_map A = some l) (hB : B ∈ l)
    (hi : ts.get? i = some tA) (hA : A ∈ tA)
    (hj : ts.get? j = some tB) (hBt : B ∈ tB) : j < i := by
  obtain ⟨hmet, hcyc, rfl⟩ := build_ok_elim hI hb
  have hedge : (A, B) ∈ (builtGraph b).edges := by
    rw [builtGraph_edges hI, mem_edgesOf_iff_mapGet hI.keys_nodup]
    exact ⟨l, hl, hB⟩
  have hnd : (builtGraph b).nodes.Nodup := by
    rw [builtGraph_nodes, hI.nodes_eq]
    exact hI.elements_nodup
  exact tranchesLoop_prec fuel _ ts hnd ht A B hedge i j tA tB hi hA hj hBt

/-! ## Claims -/

/-- Claim C2: Tranche partition law — for every registration sequence whose
`build()` succeeds, the concatenation of the tranches returned by
`generate_tranches()` is a permutation of the declared element names,
which are themselves duplicate-free: every declared element appears in
exactly one tranche, exactly once. -/
theorem C2_tranche_partition (regs : List (String × List String))
    (d : Dependencies) (ts : List (List String)) (fuel : Nat)
    (hb : build (buildFrom regs) = .ok d)
    (ht : d.generate_tranches fuel = some (.ok ts)) :
    ts.flatten.Perm (buildFrom regs).all_elements ∧
      (buildFrom regs).all_elements.Nodup := by
  have hI := inv_buildFrom regs
  obtain ⟨hmet, hcyc, rfl⟩ := build_ok_elim hI hb
  obtain ⟨rest, hr, hperm⟩ := tranchesLoop_perm fuel (builtGraph (buildFrom regs)) [] ts ht
  simp only [List.nil_append] at hr
  subst hr
  refine ⟨?_, hI.elements_nodup⟩
  have hne : (builtGraph (buildFrom regs)).nodes = (buildFrom regs).all_elements := by
    rw [builtGraph_nodes, hI.nodes_eq]
  rw [← hne]
  exact hperm

/-- Claim C3: Dependency precedence law — if `B` occurs in `A`'s final
dependency list after a successful `build()`, any tranche containing `B`
comes strictly before any tranche containing `A` in the output of
`generate_tranches()`. -/
theorem C3_dependency_precedence (regs : List (String × List String))
    (d : Dependencies) (ts : List (List String)) (A B : String)
    (l : List String) (i j : Nat) (tA tB : List String) (fuel : Nat)
    (hb : build (buildFrom regs) = .ok d)
    (ht : d.generate_tranches fuel = some (.ok ts))
    (hl : mapGet (buildFrom regs).dependency_map A = some l) (hB : B ∈ l)
    (hi : ts.get? i = some tA) (hA : A ∈ tA)
    (hj : ts.get? j = some tB) (hBt : B ∈ tB) : j < i :=
  prec_core (inv_buildFrom regs) hb ht hl hB hi hA hj hBt

/-- Claim C4: Cycle rejection — if every name ever passed as a dependency is a
declared element and the final dependency mapping contains a cycle
(some element transitively depends on itself through `depRel`), then
`build()` fails with the cyclic-dependency error, so no `Dependencies`
value is produced. -/
theorem C4_cycle_rejection (regs : List (String × List String))
    (hdecl : ∀ x ∈ (buildFrom regs).all_dependencies, x ∈ (buildFrom regs).all_elements)
    (hcyc : ∃ n, Relation.TransGen (depRel (buildFrom regs)) n n) :
    build (buildFrom regs) = .error .cyclicDependency := by
  have hI : Inv (buildFrom regs) := inv_buildFrom regs
  have hmet : dependencies_are_met (buildFrom regs) = true :=
    dependencies_are_met_iff.mpr hdecl
  obtain ⟨n, hn⟩ := hcyc
  have hcyc' : Relation.TransGen (edgeRel (builtGraph (buildFrom regs))) n n := by
    refine Relation.TransGen.mono ?_ hn
    intro a c hac
    obtain ⟨l, hl, hc⟩ := hac
    show (a, c) ∈ (builtGraph (buildFrom regs)).edges
    rw [builtGraph_edges hI, mem_edgesOf_iff_mapGet hI.keys_nodup]
    exact ⟨l, hl, hc⟩
  have hwf : ∀ e ∈ (builtGraph (buildFrom regs)).edges,
      e.1 ∈ (builtGraph (buildFrom regs)).nodes := by
    intro e he
    rw [builtGraph_nodes, hI.nodes_eq]
    refine edgesOf_source_mem hI e ?_
    rw [← builtGraph_edges hI]
    exact he
  have hnone := cycle_tranchesLoop hwf hcyc'
    (builtGraph (buildFrom regs)).nodes.length []
  exact build_eq_cyclic hmet (is_cyclic_of_none hnone)

/-- Claim C5: Error precedence — if some name passed as a dependency is not a
declared element, `build()` fails with the missing-dependency error (and
therefore never with the cyclic-dependency error), regardless of any
cycles among the declared part: referential integrity is checked first. -/
theorem C5_missing_dependency_first (regs : List (String × List String))
    (h : ∃ x ∈ (buildFrom regs).all_dependencies, x ∉ (buildFrom regs).all_elements) :
    build (buildFrom regs) = .error .missingDependency := by
  refine build_eq_missing ?_
  cases hmet : dependencies_are_met (buildFrom regs) with
  | false => rfl
  | true =>
    obtain ⟨x, hx, hnx⟩ := h
    exact absurd (dependencies_are_met_iff.mp hmet x hx) hnx

/-- Claim C10: Totality of tranche generation after a successful `build()` —
the loop finishes within node-count iterations with an `Ok` result, and
no fuel bound ever makes it return the internal `"Node not found"`
error. -/
theorem C10_generate_tranches_total (regs : List (String × List String))
    (d : Dependencies) (hb : build (buildFrom regs) = .ok d) :
    (∃ ts, ∀ fuel, d.graph.nodes.length ≤ fuel →
      d.generate_tranches fuel = some (.ok ts)) ∧
    (∀ fuel e, d.generate_tranches fuel ≠ some (.error e)) :=
  ⟨generate_of_build_ok hb, fun fuel e => tranchesLoop_ne_error fuel d.graph [] e⟩

end Depper

namespace Depper

/-- Core determinism: builders that agree on the element-name set, on the
referential-integrity verdict, and on the members of each element's final
dependency list have the same outcome. -/
theorem det_core {b₁ b₂ : DependenciesBuilder} (h₁ : Inv b₁) (h₂ : Inv b₂)
    (hel : ∀ x, x ∈ b₁.all_elements ↔ x ∈ b₂.all_elements)
    (hmet : dependencies_are_met b₁ = dependencies_are_met b₂)
    (hdep : ∀ n x, (∃ l, mapGet b₁.dependency_map n = some l ∧ x ∈ l) ↔
                   (∃ l, mapGet b₂.dependency_map n = some l ∧ x ∈ l)) :
    SameOutcome b₁ b₂ := by
  have hGR : GraphRel (builtGraph b₁) (builtGraph b₂) := by
    refine ⟨?_, ?_, ?_, ?_⟩
    · rw [builtGraph_nodes, h₁.nodes_eq]
      exact h₁.elements_nodup
    · rw [builtGraph_nodes, h₂.nodes_eq]
      exact h₂.elements_nodup
    · intro x
      rw [builtGraph_nodes, builtGraph_nodes, h₁.nodes_eq, h₂.nodes_eq]
      exact hel x
    · intro p
      show (p.1, p.2) ∈ (builtGraph b₁).edges ↔ (p.1, p.2) ∈ (builtGraph b₂).edges
      rw [builtGraph_edges h₁, builtGraph_edges h₂,
        mem_edgesOf_iff_mapGet h₁.keys_nodup, mem_edgesOf_iff_mapGet h₂.keys_nodup]
      exact hdep p.1 p.2
  have hperm : b₁.all_elements.Perm b₂.all_elements :=
    (List.perm_ext_iff_of_nodup h₁.elements_nodup h₂.elements_nodup).mpr hel
  have hlen : (builtGraph b₁).nodes.length = (builtGraph b₂).nodes.length := by
    rw [builtGraph_nodes, builtGraph_nodes, h₁.nodes_eq, h₂.nodes_eq]
    exact hperm.length_eq
  cases hm1 : dependencies_are_met b₁ with
  | false =>
    have hm2 : dependencies_are_met b₂ = false := by rw [← hmet]; exact hm1
    constructor
    · intro e
      rw [build_eq_missing hm1, build_eq_missing hm2]
    · intro d₁ hd₁
      rw [build_eq_missing hm1] at hd₁
      simp at hd₁
  | true =>
    have hm2 : dependencies_are_met b₂ = true := by rw [← hmet]; exact hm1
    rcases tranchesLoop_bisim (builtGraph b₁).nodes.length _ _ hGR with
      ⟨hn₁, hn₂⟩ | ⟨ts₁, ts₂, ht₁, ht₂, hl, hm⟩
    · have hc₁ : is_cyclic_directed (builtGraph b₁) = true := is_cyclic_of_none hn₁
      have hc₂ : is_cyclic_directed (builtGraph b₂) = true :=
        is_cyclic_of_none (by rw [← hlen]; exact hn₂)
      constructor
      · intro e
        rw [build_eq_cyclic hm1 hc₁, build_eq_cyclic hm2 hc₂]
      · intro d₁ hd₁
        rw [build_eq_cyclic hm1 hc₁] at hd₁
        simp at hd₁
    · have hc₁ : is_cyclic_directed (builtGraph b₁) = false := is_cyclic_of_ok ht₁
      have hc₂ : is_cyclic_directed (builtGraph b₂) = false :=
        is_cyclic_of_ok (g := builtGraph b₂) (by rw [← hlen]; exact ht₂)
      constructor
      · intro e
        rw [build_eq_ok h₁ hm1 hc₁, build_eq_ok h₂ hm2 hc₂]
        constructor
        · intro h
          exact absurd h (by simp)
        · intro h
          exact absurd h (by simp)
      · intro d₁ hd₁
        rw [build_eq_ok h₁ hm1 hc₁] at hd₁
        have hd₁' : d₁ = ⟨builtGraph b₁⟩ := by
          injection hd₁ with h'
          exact h'.symm
        subst hd₁'
        refine ⟨⟨builtGraph b₂⟩, ts₁, ts₂, build_eq_ok h₂ hm2 hc₂, ?_, ?_, hl, hm⟩
        · intro fuel hf
          exact tranchesLoop_mono ht₁ hf
        · intro fuel hf
          exact tranchesLoop_mono ht₂ (by rw [hlen]; exact hf)

end Depper

namespace Depper

/-- Claim C1 counterexample: the registration sequences `[a:[]]` and
`[a:[b], a:[]]` produce literally the same final dependency map and the
same element list, yet the first builds successfully while the second
fails with the missing-dependency error — `all_dependencies` keeps the
stale name `b` from the overwritten registration.  This refutes the claim
that the outcome depends only on the final name-to-dependency-list
mapping. -/
theorem C1_counterexample :
    (buildFrom [("a", [])]).dependency_map
        = (buildFrom [("a", ["b"]), ("a", [])]).dependency_map ∧
    (buildFrom [("a", [])]).all_elements
        = (buildFrom [("a", ["b"]), ("a", [])]).all_elements ∧
    build (buildFrom [("a", [])])
        = .ok ⟨⟨["a"], []⟩⟩ ∧
    build (buildFrom [("a", ["b"]), ("a", [])])
        = .error .missingDependency :=
  ⟨rfl, rfl, rfl, rfl⟩

/-- Claim C1 (amended): registration-order idempotence holds between any two
`add_element` sequences that produce the same final name-to-dependency-
list mapping and additionally agree on the referential-integrity verdict
of `dependencies_are_met` (which also scans dependency names of
overwritten registrations): the validation outcome is the same error, or
both succeed and `generate_tranches` yields equally many tranches that
agree pairwise as sets. -/
theorem C1_same_final_map_same_outcome (regs₁ regs₂ : List (String × List String))
    (hmap : ∀ n, mapGet (buildFrom regs₁).dependency_map n
        = mapGet (buildFrom regs₂).dependency_map n)
    (hmet : dependencies_are_met (buildFrom regs₁)
        = dependencies_are_met (buildFrom regs₂)) :
    SameOutcome (buildFrom regs₁) (buildFrom regs₂) := by
  refine det_core (inv_buildFrom regs₁) (inv_buildFrom regs₂) ?_ hmet ?_
  · intro x
    rw [← (inv_buildFrom regs₁).keys_iff, ← (inv_buildFrom regs₂).keys_iff, hmap x]
  · intro n x
    rw [hmap n]

/-- Claim C6 counterexample: feeding `generate_tranches` a one-node graph with
the self-loop `a → a` (node count 1), the loop is still running after one
iteration — the claimed node-count bound — and still after ten: each pass
removes nothing, so it never returns an error and never terminates. -/
theorem C6_counterexample :
    Dependencies.generate_tranches ⟨⟨["a"], [("a", "a")]⟩⟩ 1 = none ∧
    Dependencies.generate_tranches ⟨⟨["a"], [("a", "a")]⟩⟩ 10 = none :=
  ⟨rfl, rfl⟩

/-- Claim C6 (amended): on a graph containing a directed cycle (with edge
sources among the nodes), `generate_tranches` never fails and never
terminates: after any number of loop iterations it is still running —
the Rust `while` loop has no iteration bound, so it loops forever rather
than returning an error. -/
theorem C6_cyclic_loop_diverges (g : DiGraphS)
    (hwf : ∀ e ∈ g.edges, e.1 ∈ g.nodes)
    (hcyc : ∃ n, Relation.TransGen (edgeRel g) n n) :
    ∀ fuel, Dependencies.generate_tranches ⟨g⟩ fuel = none := by
  obtain ⟨n, hn⟩ := hcyc
  intro fuel
  exact cycle_tranchesLoop hwf hn fuel []

/-- Claim C8: last-write-wins re-registration — if `e` is already registered,
re-registering it with `[y]` makes its recorded dependency list exactly
`[y]`, leaves the set of known element names unchanged, and after a
successful `build()` every tranche containing `y` precedes every tranche
containing `e`. -/
theorem C8_last_write_wins (regs : List (String × List String)) (e y : String)
    (he : (mapGet (buildFrom regs).dependency_map e).isSome) :
    mapGet (buildFrom (regs ++ [(e, [y])])).dependency_map e = some [y] ∧
    (buildFrom (regs ++ [(e, [y])])).all_elements = (buildFrom regs).all_elements ∧
    (∀ d ts i j tE tY fuel,
      build (buildFrom (regs ++ [(e, [y])])) = .ok d →
      d.generate_tranches fuel = some (.ok ts) →
      ts.get? i = some tE → e ∈ tE →
      ts.get? j = some tY → y ∈ tY → j < i) := by
  have hfold : buildFrom (regs ++ [(e, [y])])
      = add_element (buildFrom regs) e [y] := by
    unfold buildFrom
    rw [List.foldl_append]
    rfl
  obtain ⟨v, hv⟩ := Option.isSome_iff_exists.mp he
  have hget : mapGet (buildFrom (regs ++ [(e, [y])])).dependency_map e = some [y] := by
    rw [hfold, add_element_some hv]
    exact mapGet_mapSet_self he
  refine ⟨hget, ?_, ?_⟩
  · rw [hfold, add_element_some hv]
  · intro d ts i j tE tY fuel hb ht hi hE hj hY
    exact prec_core (inv_buildFrom (regs ++ [(e, [y])])) hb ht hget
      (by simp) hi hE hj hY

end Depper

namespace Depper

/-- Registering a list of fresh, pairwise-distinct names appends the
registrations verbatim to the dependency map and their names to the
element list. -/
theorem buildFrom_fresh :
    ∀ (regs : List (String × List String)) (b : DependenciesBuilder),
      (∀ k ∈ regs.map Prod.fst, mapGet b.dependency_map k = none) →
      (regs.map Prod.fst).Nodup →
      (regs.foldl (fun b r => add_element b r.1 r.2) b).dependency_map
          = b.dependency_map ++ regs ∧
      (regs.foldl (fun b r => add_element b r.1 r.2) b).all_elements
          = b.all_elements ++ regs.map Prod.fst := by
  intro regs
  induction regs with
  | nil =>
    intro b _ _
    simp
  | cons r rest ih =>
    intro b hdisj hnd
    obtain ⟨n, l⟩ := r
    simp only [List.map_cons, List.nodup_cons] at hnd
    have hg : mapGet b.dependency_map n = none := hdisj n (by simp)
    simp only [List.foldl_cons]
    rw [add_element_none hg]
    have hdisj' : ∀ k ∈ rest.map Prod.fst,
        mapGet (b.dependency_map ++ [(n, l)]) k = none := by
      intro k hk
      rw [mapGet_append, hdisj k (by simp [hk]),
        show mapGet [(n, l)] k = none from by
          rw [mapGet_cons, if_neg (fun hnk => hnd.1 (by rw [hnk]; exact hk))]
          rfl]
      rfl
    obtain ⟨hm, he⟩ := ih
      { b with
        all_dependencies := b.all_dependencies ++ l
        all_elements := b.all_elements ++ [n]
        graph := { b.graph with nodes := b.graph.nodes ++ [n] }
        dependency_map := b.dependency_map ++ [(n, l)] } hdisj' hnd.2
    constructor
    · rw [hm]
      show (b.dependency_map ++ [(n, l)]) ++ rest = _
      rw [List.append_assoc]
      rfl
    · rw [he]
      show (b.all_elements ++ [n]) ++ rest.map Prod.fst = _
      rw [List.append_assoc]
      rfl

/-- First-match lookup in a duplicate-free association list is invariant
under permutation. -/
theorem mapGet_perm_of_nodup {m₁ m₂ : List (String × List String)}
    (hp : m₁.Perm m₂) (hnd : (m₁.map Prod.fst).Nodup) (n : String) :
    mapGet m₁ n = mapGet m₂ n := by
  have hnd₂ : (m₂.map Prod.fst).Nodup := ((hp.map Prod.fst).nodup_iff).mp hnd
  cases h₁ : mapGet m₁ n with
  | some v =>
    rw [mem_mapGet_of_nodup hnd₂ (hp.subset (mapGet_eq_some_mem h₁))]
  | none =>
    cases h₂ : mapGet m₂ n with
    | none => rfl
    | some w =>
      have hmem : (n, w) ∈ m₁ := hp.symm.subset (mapGet_eq_some_mem h₂)
      have := mem_mapGet_of_nodup hnd hmem
      rw [h₁] at this
      cases this

/-- Claim C7: Concrete layering — registering `e:[]`, `y:[]`, `d:[e]`, `b:[d]`,
`c:[d]`, `a:[d,e,y]` in any order validates successfully and
`generate_tranches()` returns exactly three tranches whose membership
sets are `{e,y}`, `{d}`, `{b,c,a}`, in that tranche order. -/
theorem C7_concrete_layering (regs : List (String × List String))
    (hperm : regs.Perm
      [("e", []), ("y", []), ("d", ["e"]), ("b", ["d"]), ("c", ["d"]),
        ("a", ["d", "e", "y"])]) :
    ∃ d ts, build (buildFrom regs) = .ok d ∧
      (∀ fuel, 6 ≤ fuel → d.generate_tranches fuel = some (.ok ts)) ∧
      ts.length = 3 ∧
      (∀ x, x ∈ ts.getD 0 [] ↔ (x = "e" ∨ x = "y")) ∧
      (∀ x, x ∈ ts.getD 1 [] ↔ x = "d") ∧
      (∀ x, x ∈ ts.getD 2 [] ↔ (x = "b" ∨ x = "c" ∨ x = "a")) := by
  have hnd : (([("e", ([] : List String)), ("y", []), ("d", ["e"]), ("b", ["d"]),
      ("c", ["d"]), ("a", ["d", "e", "y"])]).map Prod.fst).Nodup := by decide
  have hndr : (regs.map Prod.fst).Nodup := ((hperm.map Prod.fst).nodup_iff).mpr hnd
  have hmapsr := buildFrom_fresh regs Dependencies.builder (fun k _ => rfl) hndr
  have hmapsc := buildFrom_fresh _ Dependencies.builder (fun k _ => rfl) hnd
  have hmapr : (buildFrom regs).dependency_map = regs := by
    rw [show (buildFrom regs).dependency_map
        = Dependencies.builder.dependency_map ++ regs from hmapsr.1]
    rfl
  have hmapc : (buildFrom [("e", []), ("y", []), ("d", ["e"]), ("b", ["d"]),
      ("c", ["d"]), ("a", ["d", "e", "y"])]).dependency_map
      = [("e", []), ("y", []), ("d", ["e"]), ("b", ["d"]), ("c", ["d"]),
        ("a", ["d", "e", "y"])] := by
    rw [show (buildFrom [("e", []), ("y", []), ("d", ["e"]), ("b", ["d"]),
        ("c", ["d"]), ("a", ["d", "e", "y"])]).dependency_map
        = Dependencies.builder.dependency_map ++ _ from hmapsc.1]
    rfl
  have hmap : ∀ n, mapGet (buildFrom regs).dependency_map n
      = mapGet (buildFrom [("e", []), ("y", []), ("d", ["e"]), ("b", ["d"]),
          ("c", ["d"]), ("a", ["d", "e", "y"])]).dependency_map n := by
    intro n
    rw [hmapr, hmapc]
    exact mapGet_perm_of_nodup hperm hndr n
  have hel : ∀ x, x ∈ (buildFrom regs).all_elements
      ↔ x ∈ (buildFrom [("e", []), ("y", []), ("d", ["e"]), ("b", ["d"]),
          ("c", ["d"]), ("a", ["d", "e", "y"])]).all_elements := by
    intro x
    rw [mem_all_elements_buildFrom, mem_all_elements_buildFrom]
    exact (hperm.map Prod.fst).mem_iff
  have hdeps : ∀ x, x ∈ (buildFrom regs).all_dependencies
      ↔ x ∈ (buildFrom [("e", []), ("y", []), ("d", ["e"]), ("b", ["d"]),
          ("c", ["d"]), ("a", ["d", "e", "y"])]).all_dependencies := by
    intro x
    rw [all_dependencies_buildFrom, all_dependencies_buildFrom,
      List.mem_flatMap, List.mem_flatMap]
    constructor
    · rintro ⟨p, hp, hx⟩
      exact ⟨p, hperm.subset hp, hx⟩
    · rintro ⟨p, hp, hx⟩
      exact ⟨p, hperm.symm.subset hp, hx⟩
  have hmet := dependencies_are_met_ext hdeps hel
  obtain ⟨herr, hok⟩ := det_core (inv_buildFrom regs) (inv_buildFrom _) hel hmet
    (fun n x => by rw [hmap n])
  have hbc : build (buildFrom [("e", []), ("y", []), ("d", ["e"]), ("b", ["d"]),
      ("c", ["d"]), ("a", ["d", "e", "y"])])
      = .ok ⟨⟨["e", "y", "d", "b", "c", "a"],
          [("d", "e"), ("b", "d"), ("c", "d"), ("a", "d"), ("a", "e"),
            ("a", "y")]⟩⟩ := rfl
  cases hbr : build (buildFrom regs) with
  | error e =>
    have hce := (herr e).mp hbr
    rw [hbc] at hce
    exact Except.noConfusion hce
  | ok d =>
    obtain ⟨d₂, ts₁, ts₂, hb₂, hg₁, hg₂, hlen, hmem⟩ := hok d hbr
    rw [hbc] at hb₂
    have hd₂ : d₂ = ⟨⟨["e", "y", "d", "b", "c", "a"],
        [("d", "e"), ("b", "d"), ("c", "d"), ("a", "d"), ("a", "e"),
          ("a", "y")]⟩⟩ := by
      injection hb₂ with h'
      exact h'.symm
    subst hd₂
    have h6 := hg₂ 6 (by decide)
    have h6' : Dependencies.generate_tranches
        ⟨⟨["e", "y", "d", "b", "c", "a"],
          [("d", "e"), ("b", "d"), ("c", "d"), ("a", "d"), ("a", "e"),
            ("a", "y")]⟩⟩ 6
        = some (.ok [["e", "y"], ["d"], ["b", "c", "a"]]) := rfl
    have hts₂ : ts₂ = [["e", "y"], ["d"], ["b", "c", "a"]] := by
      have hcomb := h6'.symm.trans h6
      injection hcomb with h1
      injection h1 with h2
      exact h2.symm
    subst hts₂
    have hdlen : d.graph.nodes.length = 6 := by
      obtain ⟨_, _, rfl⟩ := build_ok_elim (inv_buildFrom regs) hbr
      show (builtGraph (buildFrom regs)).nodes.length = 6
      rw [builtGraph_nodes, (inv_buildFrom regs).nodes_eq,
        show (buildFrom regs).all_elements
          = Dependencies.builder.all_elements ++ regs.map Prod.fst from hmapsr.2]
      show (regs.map Prod.fst).length = 6
      rw [List.length_map, hperm.length_eq]
      rfl
    refine ⟨d, ts₁, rfl, ?_, ?_, ?_, ?_, ?_⟩
    · intro fuel hf
      exact hg₁ fuel (by rw [hdlen]; exact hf)
    · rw [hlen]
      rfl
    · intro x
      have := hmem 0 x
      simpa using this
    · intro x
      have := hmem 1 x
      simpa using this
    · intro x
      have := hmem 2 x
      simpa using this

end Depper

namespace Depper

theorem builderRel_add {b₁ b₂ : DependenciesBuilder} (h : BuilderRel b₁ b₂)
    (m : String) (ds : List String) :
    BuilderRel (add_element b₁ m ds) (add_element b₂ m ds) := by
  obtain ⟨hel, hgr, hdeps, hsome, hdep⟩ := h
  cases hg₁ : mapGet b₁.dependency_map m with
  | none =>
    have hg₂ : mapGet b₂.dependency_map m = none := by
      have hs := hsome m
      rw [hg₁] at hs
      cases h₂ : mapGet b₂.dependency_map m with
      | none => rfl
      | some w => rw [h₂] at hs; simp at hs
    rw [add_element_none hg₁, add_element_none hg₂]
    refine ⟨by rw [hel], by rw [hgr], ?_, ?_, ?_⟩
    · intro x
      show x ∈ b₁.all_dependencies ++ ds ↔ x ∈ b₂.all_dependencies ++ ds
      rw [List.mem_append, List.mem_append, hdeps x]
    · intro n
      show (mapGet (b₁.dependency_map ++ [(m, ds)]) n).isSome
        = (mapGet (b₂.dependency_map ++ [(m, ds)]) n).isSome
      rw [mapGet_append, mapGet_append]
      cases h₁ : mapGet b₁.dependency_map n with
      | some v =>
        have hs := hsome n
        rw [h₁] at hs
        cases h₂ : mapGet b₂.dependency_map n with
        | none => rw [h₂] at hs; simp at hs
        | some w => rfl
      | none =>
        have hs := hsome n
        rw [h₁] at hs
        cases h₂ : mapGet b₂.dependency_map n with
        | some w => rw [h₂] at hs; simp at hs
        | none => rfl
    · intro n x
      show (∃ l, mapGet (b₁.dependency_map ++ [(m, ds)]) n = some l ∧ x ∈ l)
        ↔ (∃ l, mapGet (b₂.dependency_map ++ [(m, ds)]) n = some l ∧ x ∈ l)
      rw [mapGet_append, mapGet_append]
      cases h₁ : mapGet b₁.dependency_map n with
      | some v =>
        have hs := hsome n
        rw [h₁] at hs
        cases h₂ : mapGet b₂.dependency_map n with
        | none => rw [h₂] at hs; simp at hs
        | some w =>
          rw [Option.or_some, Option.or_some]
          have hd := hdep n x
          rw [h₁, h₂] at hd
          exact hd
      | none =>
        have hs := hsome n
        rw [h₁] at hs
        cases h₂ : mapGet b₂.dependency_map n with
        | some w => rw [h₂] at hs; simp at hs
        | none => exact Iff.rfl
  | some v =>
    have hg₂ : ∃ w, mapGet b₂.dependency_map m = some w := by
      have hs := hsome m
      rw [hg₁] at hs
      cases h₂ : mapGet b₂.dependency_map m with
      | none => rw [h₂] at hs; simp at hs
      | some w => exact ⟨w, rfl⟩
    obtain ⟨w, hg₂⟩ := hg₂
    rw [add_element_some hg₁, add_element_some hg₂]
    refine ⟨hel, hgr, ?_, ?_, ?_⟩
    · intro x
      show x ∈ b₁.all_dependencies ++ ds ↔ x ∈ b₂.all_dependencies ++ ds
      rw [List.mem_append, List.mem_append, hdeps x]
    · intro n
      show (mapGet (mapSet b₁.dependency_map m ds) n).isSome
        = (mapGet (mapSet b₂.dependency_map m ds) n).isSome
      by_cases hnm : m = n
      · subst hnm
        rw [mapGet_mapSet_self (by rw [hg₁]; rfl),
          mapGet_mapSet_self (by rw [hg₂]; rfl)]
      · rw [mapGet_mapSet_ne hnm, mapGet_mapSet_ne hnm]
        exact hsome n
    · intro n x
      show (∃ l, mapGet (mapSet b₁.dependency_map m ds) n = some l ∧ x ∈ l)
        ↔ (∃ l, mapGet (mapSet b₂.dependency_map m ds) n = some l ∧ x ∈ l)
      by_cases hnm : m = n
      · subst hnm
        rw [mapGet_mapSet_self (by rw [hg₁]; rfl),
          mapGet_mapSet_self (by rw [hg₂]; rfl)]
      · rw [mapGet_mapSet_ne hnm, mapGet_mapSet_ne hnm]
        exact hdep n x

theorem builderRel_foldl {b₁ b₂ : DependenciesBuilder} (h : BuilderRel b₁ b₂)
    (regs : List (String × List String)) :
    BuilderRel (regs.foldl (fun b r => add_element b r.1 r.2) b₁)
      (regs.foldl (fun b r => add_element b r.1 r.2) b₂) := by
  induction regs generalizing b₁ b₂ with
  | nil => exact h
  | cons r rest ih => exact ih (builderRel_add h r.1 r.2)

theorem builderRel_dedup (b : DependenciesBuilder) (n : String) (l : List String) :
    BuilderRel (add_element b n l) (add_element b n l.dedup) := by
  cases hg : mapGet b.dependency_map n with
  | none =>
    rw [add_element_none hg, @add_element_none b n l.dedup hg]
    refine ⟨rfl, rfl, ?_, ?_, ?_⟩
    · intro x
      show x ∈ b.all_dependencies ++ l ↔ x ∈ b.all_dependencies ++ l.dedup
      rw [List.mem_append, List.mem_append, List.mem_dedup]
    · intro m
      show (mapGet (b.dependency_map ++ [(n, l)]) m).isSome
        = (mapGet (b.dependency_map ++ [(n, l.dedup)]) m).isSome
      rw [mapGet_append, mapGet_append]
      cases h₁ : mapGet b.dependency_map m with
      | some v => rw [Option.or_some, Option.or_some]
      | none =>
        rw [Option.none_or, Option.none_or]
        by_cases hnm : n = m
        · rw [mapGet_cons, if_pos hnm, mapGet_cons, if_pos hnm]
          rfl
        · rw [mapGet_cons, if_neg hnm, mapGet_cons, if_neg hnm]
    · intro m x
      show (∃ l', mapGet (b.dependency_map ++ [(n, l)]) m = some l' ∧ x ∈ l')
        ↔ (∃ l', mapGet (b.dependency_map ++ [(n, l.dedup)]) m = some l' ∧ x ∈ l')
      rw [mapGet_append, mapGet_append]
      cases h₁ : mapGet b.dependency_map m with
      | some v => rw [Option.or_some, Option.or_some]
      | none =>
        rw [Option.none_or, Option.none_or]
        by_cases hnm : n = m
        · rw [mapGet_cons, if_pos hnm, mapGet_cons, if_pos hnm]
          constructor
          · rintro ⟨l', hl', hx⟩
            injection hl' with hll
            subst hll
            exact ⟨l.dedup, rfl, List.mem_dedup.mpr hx⟩
          · rintro ⟨l', hl', hx⟩
            injection hl' with hll
            subst hll
            exact ⟨l, rfl, List.mem_dedup.mp hx⟩
        · rw [mapGet_cons, if_neg hnm, mapGet_cons, if_neg hnm]
  | some v =>
    rw [add_element_some hg, @add_element_some b n l.dedup v hg]
    refine ⟨rfl, rfl, ?_, ?_, ?_⟩
    · intro x
      show x ∈ b.all_dependencies ++ l ↔ x ∈ b.all_dependencies ++ l.dedup
      rw [List.mem_append, List.mem_append, List.mem_dedup]
    · intro m
      show (mapGet (mapSet b.dependency_map n l) m).isSome
        = (mapGet (mapSet b.dependency_map n l.dedup) m).isSome
      by_cases hnm : n = m
      · subst hnm
        rw [mapGet_mapSet_self (by rw [hg]; rfl),
          mapGet_mapSet_self (by rw [hg]; rfl)]
        rfl
      · rw [mapGet_mapSet_ne hnm, mapGet_mapSet_ne hnm]
    · intro m x
      show (∃ l', mapGet (mapSet b.dependency_map n l) m = some l' ∧ x ∈ l')
        ↔ (∃ l', mapGet (mapSet b.dependency_map n l.dedup) m = some l' ∧ x ∈ l')
      by_cases hnm : n = m
      · subst hnm
        rw [mapGet_mapSet_self (by rw [hg]; rfl),
          mapGet_mapSet_self (by rw [hg]; rfl)]
        constructor
        · rintro ⟨l', hl', hx⟩
          injection hl' with hll
          subst hll
          exact ⟨l.dedup, rfl, List.mem_dedup.mpr hx⟩
        · rintro ⟨l', hl', hx⟩
          injection hl' with hll
          subst hll
          exact ⟨l, rfl, List.mem_dedup.mp hx⟩
      · rw [mapGet_mapSet_ne hnm, mapGet_mapSet_ne hnm]

theorem builderRel_set :
    ∀ (regs : List (String × List String)) (k : Nat) (n : String)
      (l : List String) (b : DependenciesBuilder),
      regs.get? k = some (n, l) →
      BuilderRel (regs.foldl (fun b r => add_element b r.1 r.2) b)
        ((regs.set k (n, l.dedup)).foldl (fun b r => add_element b r.1 r.2) b) := by
  intro regs
  induction regs with
  | nil =>
    intro k n l b hk
    simp at hk
  | cons r rest ih =>
    intro k n l b hk
    cases k with
    | zero =>
      simp only [List.get?_cons_zero, Option.some.injEq] at hk
      subst hk
      show BuilderRel (rest.foldl _ (add_element b n l))
        (rest.foldl _ (add_element b n l.dedup))
      exact builderRel_foldl (builderRel_dedup b n l) rest
    | succ k' =>
      simp only [List.get?_cons_succ] at hk
      show BuilderRel (rest.foldl _ (add_element b r.1 r.2))
        ((rest.set k' (n, l.dedup)).foldl _ (add_element b r.1 r.2))
      exact ih k' n l (add_element b r.1 r.2) hk

/-- Claim C9: Duplicate tolerance — `add_element` accepts empty and duplicated
dependency lists without error (it is total), and replacing the
dependency list of any single registration by the same list with
duplicates removed changes neither the validation outcome nor the tranche
output (same number of tranches, pairwise equal as sets, in the same
order). -/
theorem C9_duplicate_tolerance (regs : List (String × List String)) (k : Nat)
    (n : String) (l : List String) (hk : regs.get? k = some (n, l)) :
    SameOutcome (buildFrom regs) (buildFrom (regs.set k (n, l.dedup))) := by
  have hrel : BuilderRel (buildFrom regs) (buildFrom (regs.set k (n, l.dedup))) :=
    builderRel_set regs k n l Dependencies.builder hk
  obtain ⟨hel, _, hdeps, hsome, hdep⟩ := hrel
  refine det_core (inv_buildFrom regs) (inv_buildFrom _) ?_ ?_ hdep
  · intro x
    rw [hel]
  · refine dependencies_are_met_ext hdeps ?_
    intro x
    rw [hel]

end Depper

namespace Depper

theorem C1_witness :
    (∀ n, mapGet (buildFrom [("a", []), ("b", ["a"])]).dependency_map n
        = mapGet (buildFrom [("b", ["a"]), ("a", [])]).dependency_map n) ∧
    dependencies_are_met (buildFrom [("a", []), ("b", ["a"])])
        = dependencies_are_met (buildFrom [("b", ["a"]), ("a", [])]) ∧
    SameOutcome (buildFrom [("a", []), ("b", ["a"])])
      (buildFrom [("b", ["a"]), ("a", [])]) := by
  have hmap : ∀ n, mapGet (buildFrom [("a", []), ("b", ["a"])]).dependency_map n
      = mapGet (buildFrom [("b", ["a"]), ("a", [])]).dependency_map n := by
    intro n
    show mapGet [("a", []), ("b", ["a"])] n = mapGet [("b", ["a"]), ("a", [])] n
    by_cases ha : n = "a"
    · subst ha
      decide
    · by_cases hb : n = "b"
      · subst hb
        decide
      · simp only [mapGet_cons,
          if_neg (show ¬("a" : String) = n from fun h => ha h.symm),
          if_neg (show ¬("b" : String) = n from fun h => hb h.symm)]
  exact ⟨hmap, by decide, C1_same_final_map_same_outcome _ _ hmap (by decide)⟩

theorem C2_witness :
    build (buildFrom [("a", ["b", "c"]), ("b", ["c"]), ("c", [])])
        = .ok ⟨⟨["a", "b", "c"], [("a", "b"), ("a", "c"), ("b", "c")]⟩⟩ ∧
    Dependencies.generate_tranches
        ⟨⟨["a", "b", "c"], [("a", "b"), ("a", "c"), ("b", "c")]⟩⟩ 3
        = some (.ok [["c"], ["b"], ["a"]]) ∧
    ([["c"], ["b"], ["a"]] : List (List String)).flatten.Perm
        (buildFrom [("a", ["b", "c"]), ("b", ["c"]), ("c", [])]).all_elements ∧
    (buildFrom [("a", ["b", "c"]), ("b", ["c"]), ("c", [])]).all_elements.Nodup :=
  ⟨rfl, rfl,
    C2_tranche_partition [("a", ["b", "c"]), ("b", ["c"]), ("c", [])]
      ⟨⟨["a", "b", "c"], [("a", "b"), ("a", "c"), ("b", "c")]⟩⟩
      [["c"], ["b"], ["a"]] 3 rfl rfl⟩

theorem C3_witness :
    build (buildFrom [("a", ["b", "c"]), ("b", ["c"]), ("c", [])])
        = .ok ⟨⟨["a", "b", "c"], [("a", "b"), ("a", "c"), ("b", "c")]⟩⟩ ∧
    mapGet (buildFrom [("a", ["b", "c"]), ("b", ["c"]), ("c", [])]).dependency_map "a"
        = some ["b", "c"] ∧
    (1 : Nat) < 2 :=
  ⟨rfl, rfl,
    C3_dependency_precedence [("a", ["b", "c"]), ("b", ["c"]), ("c", [])]
      ⟨⟨["a", "b", "c"], [("a", "b"), ("a", "c"), ("b", "c")]⟩⟩
      [["c"], ["b"], ["a"]] "a" "b" ["b", "c"] 2 1 ["a"] ["b"] 3
      rfl rfl rfl (by decide) rfl (by decide) rfl (by decide)⟩

theorem C4_witness :
    (∀ x ∈ (buildFrom [("a", ["b", "c"]), ("b", ["c"]), ("c", ["a", "b"])]).all_dependencies,
      x ∈ (buildFrom [("a", ["b", "c"]), ("b", ["c"]), ("c", ["a", "b"])]).all_elements) ∧
    (∃ n, Relation.TransGen
      (depRel (buildFrom [("a", ["b", "c"]), ("b", ["c"]), ("c", ["a", "b"])])) n n) ∧
    build (buildFrom [("a", ["b", "c"]), ("b", ["c"]), ("c", ["a", "b"])])
        = .error .cyclicDependency := by
  have hcyc : ∃ n, Relation.TransGen
      (depRel (buildFrom [("a", ["b", "c"]), ("b", ["c"]), ("c", ["a", "b"])])) n n := by
    have rab : depRel (buildFrom [("a", ["b", "c"]), ("b", ["c"]), ("c", ["a", "b"])])
        "a" "b" := ⟨["b", "c"], rfl, by decide⟩
    have rbc : depRel (buildFrom [("a", ["b", "c"]), ("b", ["c"]), ("c", ["a", "b"])])
        "b" "c" := ⟨["c"], rfl, by decide⟩
    have rca : depRel (buildFrom [("a", ["b", "c"]), ("b", ["c"]), ("c", ["a", "b"])])
        "c" "a" := ⟨["a", "b"], rfl, by decide⟩
    exact ⟨"a", Relation.TransGen.head rab
      (Relation.TransGen.head rbc (Relation.TransGen.single rca))⟩
  exact ⟨by decide, hcyc,
    C4_cycle_rejection [("a", ["b", "c"]), ("b", ["c"]), ("c", ["a", "b"])]
      (by decide) hcyc⟩

theorem C5_witness :
    (∃ x ∈ (buildFrom [("a", ["b", "c"]), ("b", ["c"])]).all_dependencies,
      x ∉ (buildFrom [("a", ["b", "c"]), ("b", ["c"])]).all_elements) ∧
    build (buildFrom [("a", ["b", "c"]), ("b", ["c"])])
        = .error .missingDependency :=
  ⟨by decide,
    C5_missing_dependency_first [("a", ["b", "c"]), ("b", ["c"])] (by decide)⟩

theorem C6_witness :
    (∀ e ∈ (DiGraphS.mk ["a"] [("a", "a")]).edges,
      e.1 ∈ (DiGraphS.mk ["a"] [("a", "a")]).nodes) ∧
    (∃ n, Relation.TransGen (edgeRel ⟨["a"], [("a", "a")]⟩) n n) ∧
    Dependencies.generate_tranches ⟨⟨["a"], [("a", "a")]⟩⟩ 5 = none := by
  have hwf : ∀ e ∈ (DiGraphS.mk ["a"] [("a", "a")]).edges,
      e.1 ∈ (DiGraphS.mk ["a"] [("a", "a")]).nodes := by decide
  have hcyc : ∃ n, Relation.TransGen (edgeRel ⟨["a"], [("a", "a")]⟩) n n :=
    ⟨"a", Relation.TransGen.single
      (show ("a", "a") ∈ [("a", "a")] by decide)⟩
  exact ⟨hwf, hcyc, C6_cyclic_loop_diverges ⟨["a"], [("a", "a")]⟩ hwf hcyc 5⟩

theorem C7_witness :
    ([("e", ([] : List String)), ("y", []), ("d", ["e"]), ("b", ["d"]),
        ("c", ["d"]), ("a", ["d", "e", "y"])].Perm
      [("e", []), ("y", []), ("d", ["e"]), ("b", ["d"]), ("c", ["d"]),
        ("a", ["d", "e", "y"])]) ∧
    (∃ d ts, build (buildFrom [("e", []), ("y", []), ("d", ["e"]), ("b", ["d"]),
        ("c", ["d"]), ("a", ["d", "e", "y"])]) = .ok d ∧
      (∀ fuel, 6 ≤ fuel → d.generate_tranches fuel = some (.ok ts)) ∧
      ts.length = 3 ∧
      (∀ x, x ∈ ts.getD 0 [] ↔ (x = "e" ∨ x = "y")) ∧
      (∀ x, x ∈ ts.getD 1 [] ↔ x = "d") ∧
      (∀ x, x ∈ ts.getD 2 [] ↔ (x = "b" ∨ x = "c" ∨ x = "a"))) :=
  ⟨List.Perm.refl _, C7_concrete_layering _ (List.Perm.refl _)⟩

theorem C8_witness :
    (mapGet (buildFrom [("b", ["d"]), ("c", ["d"]), ("a", ["d", "e", "y"]),
        ("d", ["e"]), ("e", []), ("y", [])]).dependency_map "e").isSome ∧
    mapGet (buildFrom ([("b", ["d"]), ("c", ["d"]), ("a", ["d", "e", "y"]),
        ("d", ["e"]), ("e", []), ("y", [])] ++ [("e", ["y"])])).dependency_map "e"
      = some ["y"] ∧
    (buildFrom ([("b", ["d"]), ("c", ["d"]), ("a", ["d", "e", "y"]),
        ("d", ["e"]), ("e", []), ("y", [])] ++ [("e", ["y"])])).all_elements
      = (buildFrom [("b", ["d"]), ("c", ["d"]), ("a", ["d", "e", "y"]),
        ("d", ["e"]), ("e", []), ("y", [])]).all_elements := by
  have h := C8_last_write_wins
    [("b", ["d"]), ("c", ["d"]), ("a", ["d", "e", "y"]),
      ("d", ["e"]), ("e", []), ("y", [])] "e" "y" (by decide)
  exact ⟨by decide, h.1, h.2.1⟩

theorem C9_witness :
    ([("a", ["b", "b"]), ("b", [])].get? 0 = some ("a", ["b", "b"])) ∧
    SameOutcome (buildFrom [("a", ["b", "b"]), ("b", [])])
      (buildFrom ([("a", ["b", "b"]), ("b", [])].set 0 ("a", ["b", "b"].dedup))) :=
  ⟨rfl, C9_duplicate_tolerance [("a", ["b", "b"]), ("b", [])] 0 "a" ["b", "b"] rfl⟩

theorem C10_witness :
    build (buildFrom [("x", [])]) = .ok ⟨⟨["x"], []⟩⟩ ∧
    (∃ ts, ∀ fuel, (Dependencies.mk ⟨["x"], []⟩).graph.nodes.length ≤ fuel →
      Dependencies.generate_tranches ⟨⟨["x"], []⟩⟩ fuel = some (.ok ts)) ∧
    (∀ fuel e, Dependencies.generate_tranches ⟨⟨["x"], []⟩⟩ fuel
      ≠ some (.error e)) :=
  ⟨rfl,
    (C10_generate_tranches_total [("x", [])] ⟨⟨["x"], []⟩⟩ rfl).1,
    (C10_generate_tranches_total [("x", [])] ⟨⟨["x"], []⟩⟩ rfl).2⟩

end Depper
